import Mathlib

/-!
# A shallow embedding of the jimtcl core (src/jim.c)

Byte strings are modelled as `List Nat` (the code processes bytes as 8-bit;
a byte value 0 is the C string terminator, which may also occur embedded in
a counted Jim string).  Machine integers are modelled as `Int` with explicit
wrapping where the C code converts or overflows; the embedding assumes an
LP64 platform (`int` = 32 bits, `long` = `long long` = 64 bits).

Definitions are transcribed from the C source; each definition names the C
function it embeds.
-/

/-- INT_MAX on the modelled platform (32-bit int). -/
def INT_MAX : Int := 2147483647

/-- LONG_MAX on the modelled LP64 platform. -/
def LONG_MAX : Int := 9223372036854775807

/-- LONG_MIN on the modelled LP64 platform. -/
def LONG_MIN : Int := -9223372036854775808

/-- Wrap an integer into the range of a 32-bit two's-complement `int`,
modelling the C conversion from a wider integer. -/
def int32wrap (v : Int) : Int := (v + 2147483648) % 4294967296 - 2147483648

/-- Convert a nonnegative value below 2^64 to a signed 64-bit value, modelling
the C conversion from `unsigned long`/`unsigned long long` to `jim_wide`. -/
def int64ofUnsigned (v : Nat) : Int :=
  if v < 9223372036854775808 then (v : Int) else (v : Int) - 18446744073709551616

/-- `isspace` on the default C locale (bytes). -/
def isspaceByte (c : Nat) : Bool := c = 32 || (9 ≤ c && c ≤ 13)

/-- Value of a byte as a digit in base `b` (decimal digits, then lower- and
upper-case letters), as accepted by `strtol`. -/
def digitValBase (b : Nat) (c : Nat) : Option Nat :=
  let v : Option Nat :=
    if 48 ≤ c ∧ c ≤ 57 then some (c - 48)
    else if 97 ≤ c ∧ c ≤ 122 then some (c - 87)
    else if 65 ≤ c ∧ c ≤ 90 then some (c - 55)
    else none
  match v with
  | some v => if v < b then some v else none
  | none => none

/-- Accumulated value of a digit string in base `b`. -/
def digitsVal (b : Nat) (ds : List Nat) : Nat :=
  ds.foldl (fun a c => a * b + ((digitValBase b c).getD 0)) 0

/-- Clamp to the representable range of `long`, as `strtol` does on overflow. -/
def strtolClamp (v : Int) : Int :=
  if v > LONG_MAX then LONG_MAX else if v < LONG_MIN then LONG_MIN else v

/-- C `strtol`/`strtoll` (identical on LP64): skip whitespace, optional sign,
base detection for base 0 (leading `0x` hex, leading `0` octal, else decimal),
digit accumulation with clamping.  Returns the value and the rest of the
input from the final `endptr` position; if no digits were consumed the
original input is returned (endptr = str). -/
def strtol (s0 : List Nat) (base : Nat) : Int × List Nat :=
  let s1 := s0.dropWhile isspaceByte
  let neg := s1.headD 0 = 45
  let s2 := if s1.headD 0 = 45 ∨ s1.headD 0 = 43 then s1.tail else s1
  let hexPrefix :=
    s2.headD 0 = 48 ∧ (s2.tail.headD 0 = 120 ∨ s2.tail.headD 0 = 88) ∧
      (digitValBase 16 (s2.tail.tail.headD 0)).isSome
  let based : Nat × List Nat :=
    if base = 0 then
      if hexPrefix then (16, s2.tail.tail)
      else if s2.headD 0 = 48 then (8, s2)
      else (10, s2)
    else if base = 16 then
      if hexPrefix then (16, s2.tail.tail) else (16, s2)
    else (base, s2)
  let b := based.1
  let s3 := based.2
  let ds := s3.takeWhile (fun c => (digitValBase b c).isSome)
  let rest := s3.dropWhile (fun c => (digitValBase b c).isSome)
  if ds.isEmpty then (0, s0)
  else (strtolClamp (if neg then -(digitsVal b ds : Int) else (digitsVal b ds : Int)), rest)

/-! ## Index values (`SetIndexFromAny`, src/jim.c) -/

/-- `SetIndexFromAny`: convert the string representation of a value into an
index.  `none` models the `JIM_ERR` return ("bad index").  Results model the
`int indexValue` stored in the internal representation, with 32-bit wrapping
on the narrowing assignment from `strtol`'s `long` result. -/
def SetIndexFromAny (s : List Nat) : Option Int :=
  if s.takeWhile (fun c => c ≠ 0) = [101, 110, 100] then
    -- strcmp(str, "end") == 0: index = 0, end = 1, hence -(0+1)
    some (-1)
  else
    let stripped : List Nat × Bool :=
      if s.take 4 = [101, 110, 100, 45] then (s.drop 4, true) else (s, false)
    let core := stripped.1
    let isEnd := stripped.2
    let parsed := strtol core 0
    let rest := parsed.2
    if core.headD 0 = 0 ∨ rest.headD 0 ≠ 0 then none
    else
      let index := int32wrap parsed.1
      if isEnd then
        if index < 0 then some INT_MAX else some (int32wrap (-(index + 1)))
      else
        if index < 0 then some INT_MAX else some index

/-- Decimal rendering of a natural number as ASCII digit bytes. -/
def decimalBytes (n : Nat) : List Nat :=
  if n = 0 then [48] else ((Nat.digits 10 n).reverse.map (fun d => d + 48))

/-- The bytes of the string "end". -/
def endBytes : List Nat := [101, 110, 100]

/-- The bytes of the string "end-N". -/
def endMinusBytes (n : Nat) : List Nat := [101, 110, 100, 45] ++ decimalBytes n

/-- The bytes of the string "-N". -/
def negDecimalBytes (n : Nat) : List Nat := 45 :: decimalBytes n

/-! ## Reference GC triggering (`Jim_CollectIfNeeded`, `Jim_NewReference`) -/

/-- The portion of interpreter state relevant to GC triggering. -/
structure JimInterpGC where
  referenceNextId : Int
  lastCollectId : Int
  lastCollectTime : Int
  deriving DecidableEq, Repr

def JIM_COLLECT_ID_PERIOD : Int := 5000
def JIM_COLLECT_TIME_PERIOD : Int := 300

/-- `Jim_CollectIfNeeded`: run a collection when the elapsed id count or the
elapsed time exceeds its period.  The boolean records whether `Jim_Collect`
ran; `Jim_Collect`'s trailing bookkeeping (resetting `lastCollectId` and
`lastCollectTime`) is included, its mark/sweep work is not modelled here. -/
def Jim_CollectIfNeeded (i : JimInterpGC) (now : Int) : Bool × JimInterpGC :=
  let elapsedId := i.referenceNextId - i.lastCollectId
  let elapsedTime := now - i.lastCollectTime
  if elapsedId > JIM_COLLECT_ID_PERIOD ∨ elapsedTime > JIM_COLLECT_TIME_PERIOD then
    (true, { i with lastCollectId := i.referenceNextId, lastCollectTime := now })
  else
    (false, i)

/-- `Jim_NewReference`, restricted to its GC-relevant effect: collect if
needed, then allocate the next reference id. -/
def Jim_NewReference (i : JimInterpGC) (now : Int) : Bool × JimInterpGC :=
  let c := Jim_CollectIfNeeded i now
  (c.1, { c.2 with referenceNextId := c.2.referenceNextId + 1 })

/-! ## Expression VM rotate operators (`Jim_EvalExpression`, src/jim.c)

The C code is
`unsigned long uA = (unsigned jim_wide)wA & 0xFFFFFFFF;`
`const unsigned int S = sizeof(unsigned long) * 8;`
`wC = (jim_wide)((uA << wB) | (uA >> (S - wB)));`
with no reduction of `wB`.  `S` is the platform's `unsigned long` bit width
(64 on LP64), kept here as a parameter.  A C shift whose count is negative or
not less than the promoted operand's width is undefined behaviour; the
embedding returns `none` in that case and the shifted result (reduced modulo
`2^S`, the `unsigned long` arithmetic) converted to `jim_wide` otherwise. -/

/-- `(unsigned jim_wide)wA & 0xFFFFFFFF`. -/
def maskOperand32 (wA : Int) : Nat := ((wA % 18446744073709551616).toNat) % 4294967296

/-- The `JIM_EXPROP_ROTL` case of the expression VM's integer path. -/
def Jim_EvalExpression_rotl (S : Nat) (wA wB : Int) : Option Int :=
  let uA := maskOperand32 wA
  if 0 ≤ wB ∧ wB < (S : Int) ∧ 0 ≤ (S : Int) - wB ∧ (S : Int) - wB < (S : Int) then
    some (int64ofUnsigned ((((uA <<< wB.toNat) % 2 ^ S) ||| (uA >>> (S - wB.toNat))) % 2 ^ S))
  else none

/-- The `JIM_EXPROP_ROTR` case of the expression VM's integer path. -/
def Jim_EvalExpression_rotr (S : Nat) (wA wB : Int) : Option Int :=
  let uA := maskOperand32 wA
  if 0 ≤ wB ∧ wB < (S : Int) ∧ 0 ≤ (S : Int) - wB ∧ (S : Int) - wB < (S : Int) then
    some (int64ofUnsigned (((uA >>> wB.toNat) ||| ((uA <<< (S - wB.toNat)) % 2 ^ S)) % 2 ^ S))
  else none

/-! ## Command table and procEpoch (`Jim_CreateCommand`, `Jim_DeleteCommand`,
`Jim_RenameCommand`, `SetCommandFromAny`, `Jim_GetCommand`, src/jim.c)

`Jim_Cmd` records live in a heap addressed by index, so that the C behaviour
of redefining a command in place (reusing the existing `Jim_Cmd` allocation's
role as the cache target) is observable.  The record contents are abstracted
to a payload. -/

structure JimInterpCmds where
  commands : List (String × Nat)
  cmdHeap : List Nat
  procEpoch : Nat
  deriving DecidableEq, Repr

/-- `Jim_FindHashEntry` on the commands table. -/
def Jim_FindHashEntry (tbl : List (String × Nat)) (name : String) : Option Nat :=
  match tbl.find? (fun e => e.1 = name) with
  | some e => some e.2
  | none => none

/-- `Jim_CreateCommand` (also `Jim_CreateProcedure`, which has the same
table behaviour): insert a fresh record for a new name, or overwrite the
existing record in place.  The source deliberately does not increment
`procEpoch` here ("We don't do negative caching"). -/
def Jim_CreateCommand (i : JimInterpCmds) (name : String) (payload : Nat) : JimInterpCmds :=
  match Jim_FindHashEntry i.commands name with
  | none =>
    { i with cmdHeap := i.cmdHeap ++ [payload],
             commands := (name, i.cmdHeap.length) :: i.commands }
  | some id =>
    { i with cmdHeap := i.cmdHeap.set id payload }

/-- `Jim_DeleteCommand`: `none` models the `JIM_ERR` return for a missing
name; on success the entry is removed and `procEpoch` is incremented. -/
def Jim_DeleteCommand (i : JimInterpCmds) (name : String) : Option JimInterpCmds :=
  if (Jim_FindHashEntry i.commands name).isSome then
    some { i with commands := i.commands.filter (fun e => ¬(e.1 = name)),
                  procEpoch := i.procEpoch + 1 }
  else none

/-- `Jim_RenameCommand`: empty new name deletes; otherwise re-create under
the new name and delete the old one (which increments the proc epoch). -/
def Jim_RenameCommand (i : JimInterpCmds) (oldName newName : String) : Option JimInterpCmds :=
  if newName = "" then Jim_DeleteCommand i oldName
  else
    match Jim_FindHashEntry i.commands oldName with
    | none => none
    | some id => Jim_DeleteCommand (Jim_CreateCommand i newName (i.cmdHeap.getD id 0)) oldName

/-- `SetCommandFromAny`: resolve a name through the table and build the
cached internal representation `(procEpoch, command pointer)`. -/
def SetCommandFromAny (i : JimInterpCmds) (name : String) : Option (Nat × Nat) :=
  match Jim_FindHashEntry i.commands name with
  | none => none
  | some id => some (i.procEpoch, id)

/-- `Jim_GetCommand` on a value whose cached representation is `cache`:
use the cache when its recorded epoch matches, otherwise re-resolve.
Returns the command (heap index) and the value's updated cache. -/
def Jim_GetCommand (i : JimInterpCmds) (name : String) (cache : Option (Nat × Nat)) :
    Option (Nat × (Nat × Nat)) :=
  match cache with
  | some c =>
    if c.1 = i.procEpoch then some (c.2, c)
    else match SetCommandFromAny i name with
         | none => none
         | some c2 => some (c2.2, c2)
  | none =>
    match SetCommandFromAny i name with
    | none => none
    | some c2 => some (c2.2, c2)

/-! ## Expression bytecode (`ExprCheckCorrectness` and the stack VM of
`Jim_EvalExpression`, src/jim.c) -/

/-- The expression opcodes (`JIM_EXPROP_*`). -/
inductive ExprOpcode where
  | expNOT | expBITNOT | expUNARYMINUS | expUNARYPLUS
  | expMUL | expDIV | expMOD | expSUB | expADD
  | expLSHIFT | expRSHIFT | expROTL | expROTR
  | expLT | expGT | expLTE | expGTE | expNUMEQ | expNUMNE
  | expSTREQ | expSTRNE | expBITAND | expBITXOR | expBITOR
  | expLOGICAND | expLOGICOR | expTERNARY
  | expNUMBER | expCOMMAND | expVARIABLE | expDICTSUGAR | expSTRING
  deriving DecidableEq, Repr

open ExprOpcode

/-- The operand opcodes of `ExprCheckCorrectness` (push one). -/
def isOperandOp : ExprOpcode → Bool
  | expNUMBER | expSTRING | expVARIABLE | expDICTSUGAR | expCOMMAND => true
  | _ => false

/-- The unary opcodes of `ExprCheckCorrectness` (require one, net zero). -/
def isUnaryOp : ExprOpcode → Bool
  | expNOT | expBITNOT | expUNARYMINUS | expUNARYPLUS => true
  | _ => false

/-- The binary opcodes of `ExprCheckCorrectness` (require two, net minus one). -/
def isBinaryOp : ExprOpcode → Bool
  | expADD | expSUB | expMUL | expDIV | expMOD
  | expLT | expGT | expLTE | expGTE
  | expROTL | expROTR | expLSHIFT | expRSHIFT
  | expNUMEQ | expNUMNE | expSTREQ | expSTRNE
  | expBITAND | expBITXOR | expBITOR | expLOGICAND | expLOGICOR => true
  | _ => false

/-- One instruction of `ExprCheckCorrectness`'s abstract stack simulation.
`none` covers both the `JIM_ERR` underflow return and the `Jim_Panic` default
case (neither yields an accepted program). -/
def exprCheckStep (stacklen : Nat) (op : ExprOpcode) : Option Nat :=
  if isOperandOp op then some (stacklen + 1)
  else if isUnaryOp op then (if stacklen < 1 then none else some stacklen)
  else if isBinaryOp op then (if stacklen < 2 then none else some (stacklen - 1))
  else none

/-- The abstract stack simulation over a whole program. -/
def exprCheckSim : List ExprOpcode → Nat → Option Nat
  | [], d => some d
  | op :: rest, d =>
    match exprCheckStep d op with
    | none => none
    | some d2 => exprCheckSim rest d2

/-- `ExprCheckCorrectness`: the program is accepted when the simulation
runs without underflow and ends at depth exactly one. -/
def ExprCheckCorrectness (p : List ExprOpcode) : Bool :=
  exprCheckSim p 0 = some 1

/-- Operand opcodes whose VM case cannot fail (`JIM_EXPROP_NUMBER`,
`JIM_EXPROP_STRING`: push the literal). -/
def vmPushPure : ExprOpcode → Bool
  | expNUMBER | expSTRING => true
  | _ => false

/-- Operand opcodes whose VM case may fail before pushing
(`JIM_EXPROP_VARIABLE`, `JIM_EXPROP_DICTSUGAR`, `JIM_EXPROP_COMMAND`). -/
def vmPushMayErr : ExprOpcode → Bool
  | expVARIABLE | expDICTSUGAR | expCOMMAND => true
  | _ => false

/-- The VM's arithmetic/comparison/bit binary case: pops two, may fail
(type error, division by zero), else pushes one. -/
def vmBinaryArith : ExprOpcode → Bool
  | expADD | expSUB | expMUL | expDIV | expMOD
  | expLT | expGT | expLTE | expGTE
  | expROTL | expROTR | expLSHIFT | expRSHIFT
  | expNUMEQ | expNUMNE
  | expBITAND | expBITXOR | expBITOR | expLOGICAND | expLOGICOR => true
  | _ => false

/-- The VM's string-equality case (`JIM_EXPROP_STREQ`, `JIM_EXPROP_STRNE`):
pops two, always pushes one. -/
def vmBinaryStr : ExprOpcode → Bool
  | expSTREQ | expSTRNE => true
  | _ => false

/-- The VM's unary case (`JIM_EXPROP_NOT`, `JIM_EXPROP_BITNOT`): pops one,
may fail, else pushes one.  Note the VM has no case for
`JIM_EXPROP_UNARYMINUS`/`UNARYPLUS`/`TERNARY`; those hit the panicking
default case. -/
def vmUnary : ExprOpcode → Bool
  | expNOT | expBITNOT => true
  | _ => false

/-- How a VM run ends. -/
inductive VMStatus where
  | done | errexit | underflow | panic
  deriving DecidableEq, Repr

/-- Result of a VM run: final status, operand stack depth at that point and
the maximum operand stack depth reached. -/
structure VMRes where
  status : VMStatus
  depth : Nat
  maxDepth : Nat
  deriving DecidableEq, Repr

/-- The stack discipline of the `Jim_EvalExpression` instruction loop.
`oracle` abstracts the runtime outcomes the stack discipline does not
determine (variable lookup failure, non-integer operands, division by zero,
a nested command returning non-`JIM_OK`): instruction `i` fails at its
fallible point iff the oracle's entry is `true`.  `underflow` records a
`stack[--stacklen]` executed on an empty stack. -/
def Jim_EvalExpression_run : List ExprOpcode → List Bool → Nat → Nat → VMRes
  | [], _, d, m => ⟨.done, d, m⟩
  | op :: rest, oracle, d, m =>
    let e := oracle.headD false
    let o2 := oracle.tail
    if vmPushPure op then
      Jim_EvalExpression_run rest o2 (d + 1) (max m (d + 1))
    else if vmPushMayErr op then
      if e then ⟨.errexit, d, m⟩
      else Jim_EvalExpression_run rest o2 (d + 1) (max m (d + 1))
    else if vmBinaryArith op then
      if d < 2 then ⟨.underflow, d, m⟩
      else if e then ⟨.errexit, d - 2, m⟩
      else Jim_EvalExpression_run rest o2 (d - 1) (max m (d - 1))
    else if vmBinaryStr op then
      if d < 2 then ⟨.underflow, d, m⟩
      else Jim_EvalExpression_run rest o2 (d - 1) (max m (d - 1))
    else if vmUnary op then
      if d < 1 then ⟨.underflow, d, m⟩
      else if e then ⟨.errexit, d - 1, m⟩
      else Jim_EvalExpression_run rest o2 d (max m d)
    else ⟨.panic, d, m⟩

/-! ## Backslash escape substitution (`Jim_Escape`, src/jim.c) -/

/-- `xdigitval`: hexadecimal digit value of a byte (`none` models -1). -/
def xdigitval (c : Nat) : Option Nat :=
  if 48 ≤ c ∧ c ≤ 57 then some (c - 48)
  else if 97 ≤ c ∧ c ≤ 102 then some (c - 87)
  else if 65 ≤ c ∧ c ≤ 70 then some (c - 55)
  else none

/-- `odigitval`: octal digit value of a byte (`none` models -1). -/
def odigitval (c : Nat) : Option Nat :=
  if 48 ≤ c ∧ c ≤ 55 then some (c - 48) else none

/-- One backslash escape of `Jim_Escape`'s switch: given the byte after
the backslash and the two bytes of lookahead that the C code may read
(0 plays the terminator when the buffer ends), the byte written by `*p++`
and how many further input bytes the case consumes beyond the first.
An octal escape of three digits is truncated to a byte by the `char`
store. -/
def jimEscapeDecode (c1 a2 a3 : Nat) : Nat × Nat :=
  if c1 = 97 then (7, 0)
  else if c1 = 98 then (8, 0)
  else if c1 = 102 then (12, 0)
  else if c1 = 110 then (10, 0)
  else if c1 = 114 then (13, 0)
  else if c1 = 116 then (9, 0)
  else if c1 = 118 then (11, 0)
  else if c1 = 0 then (92, 0)
  else if c1 = 120 then
    match xdigitval a2 with
    | none => (120, 0)
    | some v1 =>
      match xdigitval a3 with
      | none => (v1, 1)
      | some v2 => (v1 * 16 + v2, 2)
  else
    match odigitval c1 with
    | none => (c1, 0)
    | some v1 =>
      match odigitval a2 with
      | none => (v1, 0)
      | some w2 =>
        match odigitval a3 with
        | none => (v1 * 8 + w2, 1)
        | some w3 => (((v1 * 8 + w2) * 8 + w3) % 256, 2)

/-- `Jim_Escape`: Tcl backslash substitution over a counted byte string.
The C loop reads up to three bytes of lookahead past a backslash, finding
the buffer's terminating 0 at the end of the string; the list model's end
plays that role.  A trailing backslash copies itself. -/
def Jim_Escape : List Nat → List Nat
  | [] => []
  | [92] => [92]
  | 92 :: c1 :: r =>
    let d := jimEscapeDecode c1 (r.headD 0) (r.tail.headD 0)
    d.1 :: Jim_Escape (r.drop d.2)
  | c :: rest => c :: Jim_Escape rest
termination_by s => s.length
decreasing_by
  · simp
    have := List.length_drop ((jimEscapeDecode c1 (r.headD 0) (r.tail.headD 0)).2) r
    omega
  · simp

/-! ## The parser (src/jim.c)

The parser context holds a cursor into the program text; the embedding
carries the remaining input instead and every token routine returns the
token's bytes (the `tstart..tend` slice) together with the remaining input.
Line counting does not influence any recognised token and is omitted.
A byte 0 in the input plays the role of the C terminator where the code
tests for `'\0'`. -/

/-- Script/list token types (`JIM_TT_*`). -/
inductive JimTT where
  | ttNONE | ttSTR | ttESC | ttVAR | ttDICTSUGAR | ttCMD | ttSEP | ttEOL
  deriving DecidableEq, Repr

open JimTT

/-- Prepend to the token component of a `(token, rest)` pair. -/
def tokCons (c : Nat) (p : List Nat × List Nat) : List Nat × List Nat :=
  (c :: p.1, p.2)

/-- `JimParseBrace`'s scanning loop, entered just past the opening brace
with `level` open braces.  Returns the token (brace contents) and the rest
of the input (just past the matching close brace; an unterminated brace
closes at end of input without consuming it). -/
def jimParseBraceGo (level : Nat) : List Nat → List Nat × List Nat
  | [] => ([], [])
  | 92 :: c :: r =>
    if c ≠ 0 then tokCons 92 (tokCons c (jimParseBraceGo level r))
    else ([92], 0 :: r)
  | [92] => ([92], [])
  | 0 :: r => ([], 0 :: r)
  | 123 :: r => tokCons 123 (jimParseBraceGo (level + 1) r)
  | 125 :: r =>
    if level = 1 then ([], r)
    else tokCons 125 (jimParseBraceGo (level - 1) r)
  | c :: r => tokCons c (jimParseBraceGo level r)

/-- `JimParseBrace`: consume the opening brace, scan at level 1.  The token
type becomes `JIM_TT_STR`. -/
def JimParseBrace (input : List Nat) : List Nat × List Nat :=
  jimParseBraceGo 1 input.tail

/-! ### List mode (`JimParseList`, `JimParseListSep`, `JimParseListStr`) -/

/-- A list-mode separator byte (space, tab, carriage return, newline). -/
def isListSepByte (c : Nat) : Bool := c = 32 || c = 9 || c = 13 || c = 10

/-- `JimParseListSep`: consume a run of separator bytes. -/
def JimParseListSep (input : List Nat) : List Nat × List Nat :=
  (input.takeWhile isListSepByte, input.dropWhile isListSepByte)

/-- `JimParseListStr`'s scanning loop.  `q` is the `JIM_PS_QUOTE` state.
Returns token, rest, and the state after the token. -/
def jimParseListStrGo (q : Bool) : List Nat → List Nat × List Nat × Bool
  | [] => ([], [], q)
  | [92] => ([92], [], q)
  | 92 :: c :: r =>
    let p := jimParseListStrGo q r
    (92 :: c :: p.1, p.2.1, p.2.2)
  | 0 :: r => ([], 0 :: r, q)
  | c :: r =>
    if isListSepByte c then
      if q then
        let p := jimParseListStrGo q r
        (c :: p.1, p.2.1, p.2.2)
      else ([], c :: r, q)
    else if c = 34 then
      if q then ([], r, false)
      else
        let p := jimParseListStrGo q r
        (34 :: p.1, p.2.1, p.2.2)
    else
      let p := jimParseListStrGo q r
      (c :: p.1, p.2.1, p.2.2)

/-- Result of recognising one token. -/
structure ParseStep where
  tt : JimTT
  token : List Nat
  rest : List Nat
  state : Bool
  eofFlag : Bool
  deriving DecidableEq, Repr

/-- `JimParseListStr` including the new-word brace/quote entry.  `tt0` is the
previous token type, `q` the current quote state. -/
def JimParseListStr (tt0 : JimTT) (q : Bool) (input : List Nat) : ParseStep :=
  let newword := tt0 = ttSEP ∨ tt0 = ttEOL ∨ tt0 = ttNONE
  if newword ∧ input.headD 0 = 123 then
    let p := JimParseBrace input
    ⟨ttSTR, p.1, p.2, q, false⟩
  else
    let start : Bool × List Nat :=
      if newword ∧ input.headD 0 = 34 then (true, input.tail) else (q, input)
    let p := jimParseListStrGo start.1 start.2
    ⟨ttESC, p.1, p.2.1, p.2.2, false⟩

/-- `JimParseList`: one token of list mode. -/
def JimParseList (tt0 : JimTT) (q : Bool) (input : List Nat) : ParseStep :=
  match input with
  | [] => ⟨ttEOL, [], [], q, true⟩
  | c :: r =>
    if c = 0 then ⟨ttEOL, [], c :: r, q, true⟩
    else if isListSepByte c then
      if ¬q then
        let p := JimParseListSep (c :: r)
        ⟨ttSEP, p.1, p.2, q, false⟩
      else JimParseListStr tt0 q (c :: r)
    else JimParseListStr tt0 q (c :: r)

/-- `JimParserGetToken`: extract the token, applying `Jim_Escape` to
`JIM_TT_ESC` tokens. -/
def JimParserGetToken (tt : JimTT) (token : List Nat) : List Nat :=
  if tt = ttESC then Jim_Escape token else token

/-- The `SetListFromAny` parsing loop: run the list parser to exhaustion,
collecting `JIM_TT_STR`/`JIM_TT_ESC` tokens.  Each non-final iteration
consumes at least one byte, so the fuel `input.length + 2` suffices. -/
def setListGo : Nat → JimTT → Bool → List Nat → List (List Nat)
  | 0, _, _, _ => []
  | fuel + 1, tt0, q, input =>
    let p := JimParseList tt0 q input
    if p.eofFlag then []
    else if p.tt = ttSTR ∨ p.tt = ttESC then
      JimParserGetToken p.tt p.token :: setListGo fuel p.tt p.state p.rest
    else
      setListGo fuel p.tt p.state p.rest

/-- `SetListFromAny`: the string-to-list conversion (element extraction). -/
def SetListFromAny (s : List Nat) : List (List Nat) :=
  setListGo (s.length + 2) ttNONE false s

/-! ### Script mode (`JimParseScript` and its token routines) -/

/-- `JimParseSep`'s loop: space, tab, carriage return, and
backslash-newline pairs. -/
def jimParseSepGo : List Nat → List Nat × List Nat
  | 92 :: 10 :: r => tokCons 92 (tokCons 10 (jimParseSepGo r))
  | c :: r =>
    if c = 32 ∨ c = 9 ∨ c = 13 then tokCons c (jimParseSepGo r) else ([], c :: r)
  | [] => ([], [])

/-- An `JimParseEol` byte (space, newline, tab, carriage return, semicolon). -/
def isEolByte (c : Nat) : Bool := c = 32 || c = 10 || c = 9 || c = 13 || c = 59

/-- `JimParseEol`: consume a run of end-of-line bytes. -/
def JimParseEol (input : List Nat) : List Nat × List Nat :=
  (input.takeWhile isEolByte, input.dropWhile isEolByte)

/-- `JimParseComment`'s loop: skip to just past a newline not preceded by a
backslash.  `prev` is the previously scanned byte. -/
def jimParseCommentGo (prev : Nat) : List Nat → List Nat
  | [] => []
  | 10 :: r => if prev ≠ 92 then r else jimParseCommentGo 10 r
  | c :: r => jimParseCommentGo c r

/-- `JimParseComment` (always entered at a `#` byte). -/
def JimParseComment (input : List Nat) : List Nat :=
  jimParseCommentGo 0 input

/-- `JimParseCmd`'s loop: bracket matching with a brace level; a backslash
skips the next byte (the C code advances past it unconditionally, so a
trailing backslash consumes the rest of the buffer). -/
def jimParseCmdGo (level blevel : Nat) : List Nat → List Nat × List Nat
  | [] => ([], [])
  | c :: r =>
    if c = 91 ∧ blevel = 0 then tokCons 91 (jimParseCmdGo (level + 1) blevel r)
    else if c = 93 ∧ blevel = 0 then
      if level = 1 then ([], r)
      else tokCons 93 (jimParseCmdGo (level - 1) blevel r)
    else if c = 92 then
      match r with
      | [] => ([92], [])
      | c2 :: r2 => tokCons 92 (tokCons c2 (jimParseCmdGo level blevel r2))
    else if c = 123 then tokCons 123 (jimParseCmdGo level (blevel + 1) r)
    else if c = 125 then tokCons 125 (jimParseCmdGo level (blevel - 1) r)
    else if c = 0 then ([], 0 :: r)
    else tokCons c (jimParseCmdGo level blevel r)

/-- `JimParseCmd`: consume the opening bracket and match to the closing one. -/
def JimParseCmd (input : List Nat) : List Nat × List Nat :=
  jimParseCmdGo 1 0 input.tail

/-- A variable-name byte (`[a-zA-Z0-9_]`). -/
def isVarNameByte (c : Nat) : Bool :=
  (97 ≤ c && c ≤ 122) || (65 ≤ c && c ≤ 90) || (48 ≤ c && c ≤ 57) || c = 95

/-- `JimParseVar`'s braced-name loop (`${...}`). -/
def jimParseVarBraceGo : List Nat → List Nat × List Nat
  | [] => ([], [])
  | 0 :: r => ([], 0 :: r)
  | 125 :: r => ([], r)
  | c :: r => tokCons c (jimParseVarBraceGo r)

/-- `JimParseVar`'s dict-sugar loop over `(...)`, entered at the opening
parenthesis: consume a byte, then skip a following backslash pair. -/
def jimParseVarParenGo : List Nat → List Nat × List Nat
  | [] => ([], [])
  | 41 :: r => ([41], r)
  | 0 :: r => ([], 0 :: r)
  | c :: 92 :: c2 :: r2 =>
    if c2 ≠ 0 then tokCons c (tokCons 92 (tokCons c2 (jimParseVarParenGo r2)))
    else ([c, 92], 0 :: r2)
  | c :: r => tokCons c (jimParseVarParenGo r)

/-- `JimParseVar`, entered at the dollar sign.  `none` models the `JIM_ERR`
return used when only the bare `$` was consumed (the dispatcher then emits
the dollar as a one-byte string token). -/
def JimParseVar (input : List Nat) : Option (JimTT × List Nat × List Nat) :=
  let a := input.tail
  if a.headD 0 = 123 then
    if a.tail.headD 0 = 0 then none
    else
      let p := jimParseVarBraceGo a.tail
      some (ttVAR, p.1, p.2)
  else
    let name := a.takeWhile isVarNameByte
    let r1 := a.dropWhile isVarNameByte
    if r1.headD 0 = 40 then
      let p := jimParseVarParenGo r1
      some (ttDICTSUGAR, name ++ p.1, p.2)
    else if name = [] then none
    else some (ttVAR, name, r1)

/-- `JimParseStr`'s scanning loop for script mode.  `q` is the
`JIM_PS_QUOTE` state; returns token, rest and the state after the token.
A backslash-newline in default state ends the token before the backslash. -/
def jimParseStrGo (q : Bool) : List Nat → List Nat × List Nat × Bool
  | [] => ([], [], q)
  | [92] => ([92], [], q)
  | 92 :: c :: r =>
    if ¬q ∧ c = 10 then ([], 92 :: c :: r, q)
    else if c = 0 then ([92], 0 :: r, q)
    else
      let p := jimParseStrGo q r
      (92 :: c :: p.1, p.2.1, p.2.2)
  | 0 :: r => ([], 0 :: r, q)
  | 36 :: r => ([], 36 :: r, q)
  | 91 :: r => ([], 91 :: r, q)
  | c :: r =>
    if c = 32 ∨ c = 9 ∨ c = 10 ∨ c = 13 ∨ c = 59 then
      if ¬q then ([], c :: r, q)
      else
        let p := jimParseStrGo q r
        (c :: p.1, p.2.1, p.2.2)
    else if c = 34 then
      if q then ([], r, false)
      else
        let p := jimParseStrGo q r
        (34 :: p.1, p.2.1, p.2.2)
    else
      let p := jimParseStrGo q r
      (c :: p.1, p.2.1, p.2.2)

/-- `JimParseStr` for script mode, with the new-word brace and quote
entries (a new word follows `SEP`, `EOL`, `NONE` or `STR`). -/
def JimParseStr (tt0 : JimTT) (q : Bool) (input : List Nat) : ParseStep :=
  let newword := tt0 = ttSEP ∨ tt0 = ttEOL ∨ tt0 = ttNONE ∨ tt0 = ttSTR
  if newword ∧ input.headD 0 = 123 then
    let p := JimParseBrace input
    ⟨ttSTR, p.1, p.2, q, false⟩
  else
    let start : Bool × List Nat :=
      if newword ∧ input.headD 0 = 34 then (true, input.tail) else (q, input)
    let p := jimParseStrGo start.1 start.2
    ⟨ttESC, p.1, p.2.1, p.2.2, false⟩

/-- The script parser context (`struct JimParserCtx`, less the cursor and
line bookkeeping): remaining input, last token type, quote state, the
"comment permitted next" flag and the EOF flag. -/
structure JimParserCtx where
  input : List Nat
  tt : JimTT
  state : Bool
  comment : Bool
  eofFlag : Bool
  deriving DecidableEq, Repr

/-- `JimParserInit`. -/
def JimParserInit (prg : List Nat) : JimParserCtx :=
  ⟨prg, ttNONE, false, true, false⟩

/-- One iteration of `JimParseScript`'s dispatcher: either a token emission
(the emitted type is the context's new `tt`) or a skipped comment (the C
`continue`). -/
inductive ScriptStep where
  | emit (token : List Nat) (pc : JimParserCtx)
  | skipComment (pc : JimParserCtx)
  deriving DecidableEq, Repr

/-- Emit a string token via `JimParseStr` (shared tail of several
dispatcher cases). -/
def scriptStrEmit (pc : JimParserCtx) : ScriptStep :=
  let s := JimParseStr pc.tt pc.state pc.input
  .emit s.token { pc with input := s.rest, tt := s.tt, state := s.state }

/-- `JimParseScript`'s dispatching switch (one iteration of its retry
loop). -/
def JimParseScript1 (pc : JimParserCtx) : ScriptStep :=
  match pc.input with
  | [] => .emit [] { pc with tt := ttEOL, eofFlag := true }
  | c :: r =>
    if c = 0 then .emit [] { pc with tt := ttEOL, eofFlag := true }
    else if c = 92 ∧ r.headD 0 = 10 then
      let p := jimParseSepGo pc.input
      .emit p.1 { pc with input := p.2, tt := ttSEP }
    else if c = 92 then scriptStrEmit { pc with comment := false }
    else if c = 32 ∨ c = 9 ∨ c = 13 then
      if ¬pc.state then
        let p := jimParseSepGo pc.input
        .emit p.1 { pc with input := p.2, tt := ttSEP }
      else scriptStrEmit { pc with comment := false }
    else if c = 10 ∨ c = 59 then
      if ¬pc.state then
        let p := JimParseEol pc.input
        .emit p.1 { pc with input := p.2, tt := ttEOL, comment := true }
      else scriptStrEmit { pc with comment := true }
    else if c = 91 then
      let p := JimParseCmd pc.input
      .emit p.1 { pc with input := p.2, tt := ttCMD, comment := false }
    else if c = 36 then
      match JimParseVar pc.input with
      | some res =>
        .emit res.2.1 { pc with input := res.2.2, tt := res.1, comment := false }
      | none => .emit [36] { pc with input := r, tt := ttSTR, comment := false }
    else if c = 35 then
      if pc.comment then .skipComment { pc with input := JimParseComment pc.input }
      else scriptStrEmit pc
    else scriptStrEmit { pc with comment := false }

/-- Run the script tokenizer to exhaustion (the compiler's token
accumulation loop), collecting `(type, token)` emissions. -/
def jimParseScriptRun : Nat → JimParserCtx → List (JimTT × List Nat)
  | 0, _ => []
  | fuel + 1, pc =>
    if pc.eofFlag then []
    else
      match JimParseScript1 pc with
      | .emit tok pc2 => (pc2.tt, tok) :: jimParseScriptRun fuel pc2
      | .skipComment pc2 => jimParseScriptRun fuel pc2

/-- Tokenize a whole script (every non-final step consumes at least one
byte, so the fuel suffices). -/
def JimTokenizeScript (s : List Nat) : List (JimTT × List Nat) :=
  jimParseScriptRun (s.length + 2) (JimParserInit s)

/-! ## List quoting (`ListElementQuotingType`, `BackslashQuoteString`,
`UpdateStringOfList`, src/jim.c) -/

def JIM_ELESTR_SIMPLE : Nat := 0
def JIM_ELESTR_BRACE : Nat := 1
def JIM_ELESTR_QUOTE : Nat := 2

/-- The bytes treated as special by `ListElementQuotingType`'s scans
(space, `$`, `"`, `[`, `]`, `;`, `\`, CR, LF, TAB, FF, VT). -/
def isListSpecialByte (c : Nat) : Bool :=
  c = 32 || c = 36 || c = 34 || c = 91 || c = 93 || c = 59 || c = 92 ||
  c = 13 || c = 10 || c = 9 || c = 12 || c = 11

/-- The first scan of `ListElementQuotingType`: `none` when no special or
brace byte occurs (the string is SIMPLE); `some trySimple` when the scan
jumps to the brace test, where `trySimple` survives only if the jump was
caused by a brace. -/
def listQTScan : List Nat → Option Bool
  | [] => none
  | c :: r =>
    if isListSpecialByte c then some false
    else if c = 123 ∨ c = 125 then some true
    else listQTScan r

/-- The brace-level scan of `ListElementQuotingType`'s `testbrace` part:
`none` forces QUOTE (negative level or a backslash-newline); otherwise the
final level.  A backslash skips the following byte; whether or not the
skipped byte is the terminator, scanning continues after it. -/
def testbraceLevel : List Nat → Int → Option Int
  | [], lvl => some lvl
  | [92], lvl => some lvl
  | 92 :: c :: r, lvl => if c = 10 then none else testbraceLevel r lvl
  | 123 :: r, lvl => testbraceLevel r (lvl + 1)
  | 125 :: r, lvl => if lvl - 1 < 0 then none else testbraceLevel r (lvl - 1)
  | _ :: r, lvl => testbraceLevel r lvl

/-- The `testbrace` part of `ListElementQuotingType` (reached with the
`trySimple` flag). -/
def listQTTestbrace (s : List Nat) (trySimple : Bool) : Nat :=
  if s.getLast?.getD 0 = 92 ∨ s.getLast?.getD 0 = 93 then JIM_ELESTR_QUOTE
  else
    match testbraceLevel s 0 with
    | none => JIM_ELESTR_QUOTE
    | some lvl =>
      if lvl = 0 then
        if ¬trySimple then JIM_ELESTR_BRACE
        else if s.any isListSpecialByte then JIM_ELESTR_BRACE
        else JIM_ELESTR_SIMPLE
      else JIM_ELESTR_QUOTE

/-- `ListElementQuotingType`. -/
def ListElementQuotingType (s : List Nat) : Nat :=
  if s = [] then JIM_ELESTR_BRACE
  else if s.headD 0 = 34 ∨ s.headD 0 = 123 then listQTTestbrace s false
  else
    match listQTScan s with
    | none => JIM_ELESTR_SIMPLE
    | some trySimple => listQTTestbrace s trySimple

/-- One byte of `BackslashQuoteString`'s output. -/
def backslashQuoteByte (c : Nat) : List Nat :=
  if c = 32 ∨ c = 36 ∨ c = 34 ∨ c = 91 ∨ c = 93 ∨ c = 123 ∨ c = 125 ∨ c = 59 ∨ c = 92 then
    [92, c]
  else if c = 10 then [92, 110]
  else if c = 13 then [92, 114]
  else if c = 9 then [92, 116]
  else if c = 12 then [92, 102]
  else if c = 11 then [92, 118]
  else [c]

/-- `BackslashQuoteString`.  The C loop runs `while (*s)`, so it stops at
an embedded 0 byte. -/
def BackslashQuoteString : List Nat → List Nat
  | [] => []
  | c :: r => if c = 0 then [] else backslashQuoteByte c ++ BackslashQuoteString r

/-- The per-element rendering of `UpdateStringOfList`, by quoting type. -/
def UpdateStringOfListElement (s : List Nat) : List Nat :=
  let qt := ListElementQuotingType s
  if qt = JIM_ELESTR_SIMPLE then s
  else if qt = JIM_ELESTR_BRACE then 123 :: s ++ [125]
  else BackslashQuoteString s

/-- `UpdateStringOfList`: render each element and join with single
spaces. -/
def UpdateStringOfList (eles : List (List Nat)) : List Nat :=
  List.intercalate [32] (eles.map UpdateStringOfListElement)

/-! ## lappend (`Jim_LappendCoreCommand`, src/jim.c)

A heap of list-valued objects addressed by index, and the current frame's
variable table.  Element values (the `argv` objects appended) are opaque
ids.  Reference counts are tracked where the modelled code manipulates
them; destruction on reaching zero is not modelled. -/

structure JimObjList where
  refCount : Int
  ele : List Nat
  deriving DecidableEq, Repr

structure JimInterpVars where
  heap : List JimObjList
  vars : List (String × Nat)
  deriving DecidableEq, Repr

/-- `Jim_GetVariable` for a plain (non-link, non-dict-sugar) name. -/
def Jim_GetVariable (i : JimInterpVars) (name : String) : Option Nat :=
  match i.vars.find? (fun e => e.1 = name) with
  | some e => some e.2
  | none => none

/-- Apply a function to one heap entry. -/
def heapModify (h : List JimObjList) (id : Nat) (f : JimObjList → JimObjList) :
    List JimObjList :=
  match h.get? id with
  | some o => h.set id (f o)
  | none => h

def Jim_IncrRefCount (i : JimInterpVars) (id : Nat) : JimInterpVars :=
  { i with heap := heapModify i.heap id (fun o => { o with refCount := o.refCount + 1 }) }

def Jim_DecrRefCount (i : JimInterpVars) (id : Nat) : JimInterpVars :=
  { i with heap := heapModify i.heap id (fun o => { o with refCount := o.refCount - 1 }) }

/-- `Jim_SetVariable` for a plain name: create a fresh variable, or drop the
old value and bind the new one (the C order: decrement old, assign new,
increment new). -/
def Jim_SetVariable (i : JimInterpVars) (name : String) (objId : Nat) : JimInterpVars :=
  match Jim_GetVariable i name with
  | none =>
    let i2 := Jim_IncrRefCount i objId
    { i2 with vars := (name, objId) :: i2.vars }
  | some old =>
    let i2 := Jim_DecrRefCount i old
    let i3 := { i2 with vars := i2.vars.map (fun e => if e.1 = name then (e.1, objId) else e) }
    Jim_IncrRefCount i3 objId

/-- Modelled from the spec: `Jim_IsShared` is a jim.h macro (jim.h is not
in src/); the spec defines a shared value as one with reference count
greater than one ("Mutators check that a value is not shared
(refcount > 1)"). -/
def Jim_IsShared (o : JimObjList) : Bool := o.refCount > 1

/-- `Jim_DuplicateObj` for a list value: a fresh object (refcount 0, as
allocated by `Jim_NewObj`) whose element array is copied
(`DupListInternalRep`). -/
def Jim_DuplicateObj (i : JimInterpVars) (objId : Nat) : JimInterpVars × Nat :=
  let src := i.heap.getD objId ⟨0, []⟩
  ({ i with heap := i.heap ++ [⟨0, src.ele⟩] }, i.heap.length)

/-- `Jim_NewListObj` on an element vector. -/
def Jim_NewListObj (i : JimInterpVars) (eles : List Nat) : JimInterpVars × Nat :=
  ({ i with heap := i.heap ++ [⟨0, eles⟩] }, i.heap.length)

/-- `Jim_ListAppendElement` (called only on unshared objects; the string
representation invalidation is not part of this view). -/
def Jim_ListAppendElement (i : JimInterpVars) (listId eleId : Nat) : JimInterpVars :=
  { i with heap := heapModify i.heap listId (fun o => { o with ele := o.ele ++ [eleId] }) }

/-- `Jim_LappendCoreCommand` on variable `varName` with new elements
`newEles` (`argv[2..]`): create the variable if missing; duplicate first
and re-bind afterwards when the current value is shared.  Returns the new
state and the object set as the result. -/
def Jim_LappendCoreCommand (i : JimInterpVars) (varName : String) (newEles : List Nat) :
    JimInterpVars × Nat :=
  let g :=
    match Jim_GetVariable i varName with
    | none =>
      let a := Jim_NewListObj i []
      (Jim_SetVariable a.1 varName a.2, a.2)
    | some listId => (i, listId)
  let shared := Jim_IsShared (g.1.heap.getD g.2 ⟨0, []⟩)
  if shared then
    let d := Jim_DuplicateObj g.1 g.2
    let i2 := newEles.foldl (fun st e => Jim_ListAppendElement st d.2 e) d.1
    (Jim_SetVariable i2 varName d.2, d.2)
  else
    (newEles.foldl (fun st e => Jim_ListAppendElement st g.2 e) g.1, g.2)

/-! ## Reference parsing (`SetReferenceFromAny`, `Jim_GetReference`,
src/jim.c) -/

def JIM_REFERENCE_SPACE : Nat := 32

/-- `Jim_StringToWide`: `strtoll` (modelled by `strtol`, identical on
LP64) plus the full-consumption check. -/
def Jim_StringToWide (s : List Nat) (base : Nat) : Option Int :=
  let p := strtol s base
  if s.headD 0 = 0 ∨ p.2.headD 0 ≠ 0 then none else some p.1

/-- The bytes of the literal "~reference:". -/
def refPrefixBytes : List Nat := [126, 114, 101, 102, 101, 114, 101, 110, 99, 101, 58]

/-- The space-trimming loops of `SetReferenceFromAny` (`while (*start == ' ')
start++; while (*end == ' ' && end > start) end--;`): the backward trim stops
at the first non-space, which exists whenever the forward trim left
anything. -/
def trimSpaces (s : List Nat) : List Nat :=
  let t1 := s.dropWhile (fun c => c = 32)
  if t1.isEmpty then [] else (t1.reverse.dropWhile (fun c => c = 32)).reverse

/-- The validating core of `SetReferenceFromAny`: trim spaces from both
ends, demand exactly 32 bytes shaped `~reference:<20 bytes>:` whose middle
parses as a decimal id present in the reference table.  `none` models the
`JIM_ERR` returns. -/
def SetReferenceFromAnyCore (references : Int → Bool) (s : List Nat) : Option Int :=
  if s.length < JIM_REFERENCE_SPACE then none
  else
    let core := trimSpaces s
    if core.length ≠ JIM_REFERENCE_SPACE then none
    else if core.take 11 ≠ refPrefixBytes then none
    else if core.getD 31 0 ≠ 58 then none
    else
      match Jim_StringToWide ((core.drop 11).take 20) 10 with
      | none => none
      | some v => if references v then some v else none

/-- The value view `SetReferenceFromAny` operates on: string bytes, whether
the current type is the reference type, and the cached id. -/
structure JimObjRefView where
  bytes : List Nat
  typeIsReference : Bool
  refId : Option Int
  deriving DecidableEq, Repr

/-- `SetReferenceFromAny`: on success install the reference internal
representation; on failure the value is untouched (`Jim_FreeIntRep` runs
only after all checks pass). -/
def SetReferenceFromAny (references : Int → Bool) (o : JimObjRefView) :
    JimObjRefView × Bool :=
  match SetReferenceFromAnyCore references o.bytes with
  | none => (o, false)
  | some v => ({ o with typeIsReference := true, refId := some v }, true)

/-- `Jim_GetReference`: convert unless the value is already
reference-typed. -/
def Jim_GetReference (references : Int → Bool) (o : JimObjRefView) :
    JimObjRefView × Option Int :=
  if o.typeIsReference then (o, o.refId)
  else
    let p := SetReferenceFromAny references o
    if p.2 then (p.1, p.1.refId) else (p.1, none)

/-!
# Theorems
-/

/-! ## C3: GC trigger thresholds -/

/-- C3 counterexample: with exactly 5,000 ids allocated since the last
collection and exactly 300 seconds elapsed, allocating a reference performs
no collection, although the claim ("at least 5,000" / "at least 300
seconds") demands one. -/
theorem collectIfNeeded_threshold_counterexample :
    (Jim_NewReference ⟨5000, 0, 0⟩ 300).1 = false ∧
    (5000 : Int) - 0 ≥ 5000 ∧ (300 : Int) - 0 ≥ 300 := by decide

/-- C3 (amended): on every reference allocation, a collection is performed
if and only if strictly more than 5,000 reference ids have been allocated
since the last collection, or strictly more than 300 seconds have
elapsed. -/
theorem collectIfNeeded_trigger (i : JimInterpGC) (now : Int) :
    (Jim_NewReference i now).1 = true ↔
      (i.referenceNextId - i.lastCollectId > 5000 ∨ now - i.lastCollectTime > 300) := by
  by_cases h : i.referenceNextId - i.lastCollectId > 5000 ∨ now - i.lastCollectTime > 300 <;>
    simp [Jim_NewReference, Jim_CollectIfNeeded, JIM_COLLECT_ID_PERIOD,
      JIM_COLLECT_TIME_PERIOD, h]

/-! ## C4: rotate operators do not mask the rotation amount -/

/-- C4 counterexample: rotating 1 by 0 or by the full width (64 on LP64)
does not behave as rotating by the amount modulo the width (which would
yield 1); both perform an out-of-range shift (C undefined behaviour,
`none` in the embedding). -/
theorem exprRot_unmasked_counterexample :
    Jim_EvalExpression_rotl 64 1 64 = none ∧ Jim_EvalExpression_rotl 64 1 0 = none ∧
    Jim_EvalExpression_rotr 64 1 64 = none ∧ Jim_EvalExpression_rotr 64 1 0 = none ∧
    Jim_EvalExpression_rotl 64 1 64 ≠ some 1 ∧ Jim_EvalExpression_rotl 64 1 0 ≠ some 1 := by
  decide

/-- C4 (amended): the rotate operators do not reduce the rotation amount;
they mask only the first operand to its low 32 bits.  Both shifts are in
range — and the VM produces a value — exactly when the amount is strictly
between 0 and the `unsigned long` width `S`; any other amount (0, negative,
or at least `S`) performs an out-of-range shift. -/
theorem exprRot_shift_range (S : Nat) (wA wB : Int) :
    ((Jim_EvalExpression_rotl S wA wB).isSome ↔ (0 < wB ∧ wB < (S : Int))) ∧
    ((Jim_EvalExpression_rotr S wA wB).isSome ↔ (0 < wB ∧ wB < (S : Int))) := by
  constructor <;>
    (first
      | (unfold Jim_EvalExpression_rotl; split <;> simp <;> omega)
      | (unfold Jim_EvalExpression_rotr; split <;> simp <;> omega))

/-! ## C2: procEpoch and command-cache invalidation -/

theorem createCommand_procEpoch (i : JimInterpCmds) (name : String) (payload : Nat) :
    (Jim_CreateCommand i name payload).procEpoch = i.procEpoch := by
  unfold Jim_CreateCommand
  cases Jim_FindHashEntry i.commands name <;> rfl

theorem deleteCommand_procEpoch (i : JimInterpCmds) (name : String) (i2 : JimInterpCmds)
    (h : Jim_DeleteCommand i name = some i2) : i2.procEpoch = i.procEpoch + 1 := by
  unfold Jim_DeleteCommand at h
  split at h
  · cases h; rfl
  · cases h

/-- C2 counterexample: creating a command leaves `procEpoch` unchanged (the
source states: "There is no need to increment the 'proc epoch' because
creation of a new procedure can never affect existing cached commands.
We don't do negative caching.").  The claim demands an increment. -/
theorem createCommand_epoch_counterexample :
    (Jim_CreateCommand ⟨[], [], 0⟩ "f" 3).procEpoch = 0 ∧
    (Jim_CreateCommand ⟨[], [], 0⟩ "f" 3).procEpoch ≠ 0 + 1 :=
  ⟨rfl, by decide⟩

/-- C2 (amended): command delete and rename increment `procEpoch`, and a
cache entry recorded under an older epoch is re-resolved on its next use.
Command creation does not increment `procEpoch` — and need not: creating
over an existing name updates the command record in place, so an existing
cache entry for that name still resolves (at the unchanged epoch) to the
updated record, and absent names are never cached. -/
theorem procEpoch_invalidation :
    (∀ i name payload, (Jim_CreateCommand i name payload).procEpoch = i.procEpoch) ∧
    (∀ i name i2, Jim_DeleteCommand i name = some i2 → i2.procEpoch = i.procEpoch + 1) ∧
    (∀ i oldName newName i2, Jim_RenameCommand i oldName newName = some i2 →
      i2.procEpoch = i.procEpoch + 1) ∧
    (∀ i name ep id, ep ≠ i.procEpoch →
      Jim_GetCommand i name (some (ep, id)) = Jim_GetCommand i name none) ∧
    (∀ i name payload id, Jim_FindHashEntry i.commands name = some id →
      id < i.cmdHeap.length →
      Jim_GetCommand (Jim_CreateCommand i name payload) name (some (i.procEpoch, id)) =
        some (id, (i.procEpoch, id)) ∧
      (Jim_CreateCommand i name payload).cmdHeap.getD id 0 = payload) := by
  refine ⟨createCommand_procEpoch, deleteCommand_procEpoch, ?_, ?_, ?_⟩
  · intro i o n i2 h
    unfold Jim_RenameCommand at h
    split at h
    · have := deleteCommand_procEpoch i o i2 h
      exact this
    · rename_i hne
      cases hfind : Jim_FindHashEntry i.commands o with
      | none => rw [hfind] at h; cases h
      | some id =>
        rw [hfind] at h
        have := deleteCommand_procEpoch _ o i2 h
        rw [this, createCommand_procEpoch]
  · intro i name ep id h
    unfold Jim_GetCommand
    simp [h]
  · intro i name payload id hfind hlt
    constructor
    · unfold Jim_GetCommand
      have hep : (Jim_CreateCommand i name payload).procEpoch = i.procEpoch :=
        createCommand_procEpoch i name payload
      simp [hep]
    · unfold Jim_CreateCommand
      rw [hfind]
      simp [List.getD_eq_getElem?_getD, List.getElem?_set_self, hlt]

/-- C2 witness: the delete conjunct at a one-command table with epoch 3,
and the in-place-update conjunct at the same table. -/
theorem procEpoch_invalidation_witness :
    ((⟨[], [5], 4⟩ : JimInterpCmds).procEpoch = 3 + 1) ∧
    (Jim_GetCommand (Jim_CreateCommand ⟨[("g", 0)], [5], 3⟩ "g" 9) "g" (some (3, 0)) =
        some (0, (3, 0)) ∧
      (Jim_CreateCommand ⟨[("g", 0)], [5], 3⟩ "g" 9).cmdHeap.getD 0 0 = 9) :=
  ⟨procEpoch_invalidation.2.1 ⟨[("g", 0)], [5], 3⟩ "g" ⟨[], [5], 4⟩ (by decide),
   procEpoch_invalidation.2.2.2.2 ⟨[("g", 0)], [5], 3⟩ "g" 9 0 (by decide) (by decide)⟩

/-! ## C1: index resolution -/

theorem int32wrap_eq_self (v : Int) (h1 : -2147483648 ≤ v) (h2 : v ≤ 2147483647) :
    int32wrap v = v := by
  unfold int32wrap
  rw [Int.emod_eq_of_lt (by omega) (by omega)]
  omega

theorem strtolClamp_eq_self (v : Int) (h1 : LONG_MIN ≤ v) (h2 : v ≤ LONG_MAX) :
    strtolClamp v = v := by
  unfold strtolClamp
  rw [if_neg (by omega), if_neg (by omega)]

theorem decimalBytes_ne_nil (n : Nat) : decimalBytes n ≠ [] := by
  unfold decimalBytes
  split
  · simp
  · rename_i h
    simp [Nat.digits_ne_nil_iff_ne_zero.mpr h]

theorem decimalBytes_mem_digit {n c : Nat} (h : c ∈ decimalBytes n) :
    48 ≤ c ∧ c ≤ 57 := by
  unfold decimalBytes at h
  split at h
  · simp at h; omega
  · rename_i hn
    simp only [List.mem_map, List.mem_reverse] at h
    obtain ⟨d, hd, rfl⟩ := h
    have := Nat.digits_lt_base (by norm_num) hd
    omega

theorem digitValBase_ten {c : Nat} (h1 : 48 ≤ c) (h2 : c ≤ 57) :
    digitValBase 10 c = some (c - 48) := by
  unfold digitValBase
  rw [if_pos ⟨h1, h2⟩]
  simp
  omega

theorem decimalBytes_head_digit (n : Nat) :
    ∃ c cs, decimalBytes n = c :: cs ∧ 48 ≤ c ∧ c ≤ 57 ∧ (n ≠ 0 → 49 ≤ c) := by
  by_cases hn : n = 0
  · exact ⟨48, [], by simp [hn, decimalBytes], by omega, by omega, by omega⟩
  · obtain ⟨c, cs, he⟩ := List.exists_cons_of_ne_nil (decimalBytes_ne_nil n)
    have hmem : c ∈ decimalBytes n := by rw [he]; exact List.mem_cons_self c cs
    obtain ⟨h48, h57⟩ := decimalBytes_mem_digit hmem
    refine ⟨c, cs, he, h48, h57, fun _ => ?_⟩
    -- the leading byte is the most significant digit, which is nonzero
    have hgl : (decimalBytes n).head? = ((Nat.digits 10 n).getLast?).map (fun d => d + 48) := by
      unfold decimalBytes
      rw [if_neg hn, List.head?_map, List.head?_reverse]
    have hdig : Nat.digits 10 n ≠ [] := Nat.digits_ne_nil_iff_ne_zero.mpr hn
    obtain ⟨d, hd⟩ : ∃ d, (Nat.digits 10 n).getLast? = some d := by
      cases hlast : (Nat.digits 10 n).getLast? with
      | none => exact absurd (List.getLast?_eq_none_iff.mp hlast) hdig
      | some d => exact ⟨d, rfl⟩
    have hdne : d ≠ 0 := by
      have h2 := Nat.getLast_digit_ne_zero 10 hn
      have h4 := List.getLast?_eq_getLast (Nat.digits 10 n) hdig
      rw [hd] at h4
      have h5 : d = (Nat.digits 10 n).getLast hdig := Option.some.inj h4
      rw [h5]
      exact h2
    have : c = d + 48 := by
      rw [he] at hgl
      simp [hd] at hgl
      omega
    omega

theorem foldl_digitsVal_aux (L : List Nat) (acc : Nat) (h : ∀ d ∈ L, d < 10) :
    List.foldl (fun a c => a * 10 + ((digitValBase 10 c).getD 0)) acc
        (L.reverse.map (fun d => d + 48)) =
      acc * 10 ^ L.length + Nat.ofDigits 10 L := by
  induction L generalizing acc with
  | nil => simp
  | cons d L ih =>
    have hd : d < 10 := h d (List.mem_cons_self d L)
    have hL : ∀ x ∈ L, x < 10 := fun x hx => h x (List.mem_cons_of_mem d hx)
    simp only [List.reverse_cons, List.map_append, List.map_cons, List.map_nil,
      List.foldl_append, List.foldl_cons, List.foldl_nil]
    rw [ih acc hL]
    rw [digitValBase_ten (by omega) (by omega)]
    simp only [Option.getD_some, Nat.ofDigits_cons, List.length_cons]
    have : d + 48 - 48 = d := by omega
    rw [this]
    ring

theorem digitsVal_decimalBytes (n : Nat) : digitsVal 10 (decimalBytes n) = n := by
  by_cases hn : n = 0
  · subst hn; decide
  · unfold digitsVal decimalBytes
    rw [if_neg hn]
    rw [foldl_digitsVal_aux _ 0 (fun d hd => Nat.digits_lt_base (by norm_num) hd)]
    simp [Nat.ofDigits_digits]

theorem decimalBytes_all_digits (n : Nat) :
    ∀ c ∈ decimalBytes n, (digitValBase 10 c).isSome := by
  intro c hc
  obtain ⟨h48, h57⟩ := decimalBytes_mem_digit hc
  rw [digitValBase_ten h48 h57]
  rfl

theorem strtol_decimalBytes (n : Nat) :
    strtol (decimalBytes n) 0 = (strtolClamp n, []) := by
  obtain ⟨c, cs, he, h48, h57, h49⟩ := decimalBytes_head_digit n
  by_cases hn : n = 0
  · subst hn; decide
  · have h49 := h49 hn
    have hnspace : isspaceByte c = false := by simp [isspaceByte]; omega
    have hdrop : (decimalBytes n).dropWhile isspaceByte = decimalBytes n := by
      rw [he, List.dropWhile_cons, hnspace]; simp
    have h45 : c ≠ 45 := by omega
    have h43 : c ≠ 43 := by omega
    have h48x : c ≠ 48 := by omega
    have htake : (c :: cs).takeWhile (fun b => (digitValBase 10 b).isSome) = c :: cs := by
      rw [List.takeWhile_eq_self_iff]
      intro x hx
      exact decimalBytes_all_digits n x (he ▸ hx)
    have hdropd : (c :: cs).dropWhile (fun b => (digitValBase 10 b).isSome) = [] := by
      rw [List.dropWhile_eq_nil_iff]
      intro x hx
      exact decimalBytes_all_digits n x (he ▸ hx)
    have hval : digitsVal 10 (c :: cs) = n := he ▸ digitsVal_decimalBytes n
    simp only [strtol]
    rw [hdrop, he]
    simp only [List.headD_cons, List.tail_cons]
    simp [h45, h43, h48x, htake, hdropd, hval]

theorem strtol_negDecimalBytes (n : Nat) (hn : n ≠ 0) :
    strtol (negDecimalBytes n) 0 = (strtolClamp (-(n : Int)), []) := by
  obtain ⟨c, cs, he, h48, h57, h49⟩ := decimalBytes_head_digit n
  have h49 := h49 hn
  have h48x : c ≠ 48 := by omega
  have htake : (c :: cs).takeWhile (fun b => (digitValBase 10 b).isSome) = c :: cs := by
    rw [List.takeWhile_eq_self_iff]
    intro x hx
    exact decimalBytes_all_digits n x (he ▸ hx)
  have hdropd : (c :: cs).dropWhile (fun b => (digitValBase 10 b).isSome) = [] := by
    rw [List.dropWhile_eq_nil_iff]
    intro x hx
    exact decimalBytes_all_digits n x (he ▸ hx)
  have hval : digitsVal 10 (c :: cs) = n := he ▸ digitsVal_decimalBytes n
  have hdrop : List.dropWhile isspaceByte (negDecimalBytes n) = negDecimalBytes n := by
    unfold negDecimalBytes
    rw [List.dropWhile_cons]
    norm_num [isspaceByte]
  unfold negDecimalBytes at hdrop ⊢
  simp only [strtol]
  rw [hdrop, he]
  simp only [List.headD_cons, List.tail_cons]
  simp [h48x, htake, hdropd, hval]

theorem mem_of_mem_takeWhile {p : Nat → Bool} {x : Nat} {l : List Nat}
    (h : x ∈ l.takeWhile p) : x ∈ l := by
  induction l with
  | nil => simp at h
  | cons a l ih =>
    rw [List.takeWhile_cons] at h
    by_cases hp : p a
    · rw [if_pos hp] at h
      rcases List.mem_cons.mp h with h | h
      · exact h ▸ List.mem_cons_self a l
      · exact List.mem_cons_of_mem a (ih h)
    · rw [if_neg hp] at h
      simp at h

theorem setIndexFromAny_decimal (n : Nat) (h : (n : Int) ≤ INT_MAX) :
    SetIndexFromAny (decimalBytes n) = some n := by
  obtain ⟨c, cs, he, h48c, h57c, _⟩ := decimalBytes_head_digit n
  have hsub : ∀ x ∈ decimalBytes n, x ≤ 57 := fun x hx => (decimalBytes_mem_digit hx).2
  have hA : ¬ (decimalBytes n).takeWhile (fun c => c ≠ 0) = [101, 110, 100] := by
    intro hEq
    have h101 : (101 : Nat) ∈ (decimalBytes n).takeWhile (fun c => c ≠ 0) := by
      rw [hEq]; simp
    have := hsub 101 (mem_of_mem_takeWhile h101)
    omega
  have hB : ¬ (decimalBytes n).take 4 = [101, 110, 100, 45] := by
    intro hEq
    have h101 : (101 : Nat) ∈ (decimalBytes n).take 4 := by rw [hEq]; simp
    have := hsub 101 (List.take_subset 4 _ h101)
    omega
  have hclamp : strtolClamp (n : Int) = n :=
    strtolClamp_eq_self _ (by simp [LONG_MIN]; omega) (by simp [INT_MAX] at h; simp [LONG_MAX]; omega)
  have hwrap : int32wrap (n : Int) = n :=
    int32wrap_eq_self _ (by omega) (by simp [INT_MAX] at h; omega)
  simp only [SetIndexFromAny, hA, if_false, hB]
  rw [strtol_decimalBytes n]
  simp only [hclamp, hwrap]
  rw [he]
  simp only [List.headD_cons]
  have hc0 : ¬(c = 0 ∨ (([] : List Nat).headD 0 ≠ 0)) := by simp; omega
  simp [hc0]
  omega

theorem setIndexFromAny_endMinus (n : Nat) (h : (n : Int) + 1 ≤ INT_MAX) :
    SetIndexFromAny (endMinusBytes n) = some (-((n : Int) + 1)) := by
  obtain ⟨c, cs, he, h48c, h57c, _⟩ := decimalBytes_head_digit n
  have hA : ¬ (endMinusBytes n).takeWhile (fun c => c ≠ 0) = [101, 110, 100] := by
    simp [endMinusBytes, List.takeWhile_cons]
  have hB : (endMinusBytes n).take 4 = [101, 110, 100, 45] := by
    simp [endMinusBytes]
  have hC : (endMinusBytes n).drop 4 = decimalBytes n := by
    simp [endMinusBytes]
  have hclamp : strtolClamp (n : Int) = n :=
    strtolClamp_eq_self _ (by simp [LONG_MIN]; omega)
      (by simp [INT_MAX] at h; simp [LONG_MAX]; omega)
  have hwrap : int32wrap (n : Int) = n :=
    int32wrap_eq_self _ (by omega) (by simp [INT_MAX] at h; omega)
  have hwrap2 : int32wrap (-((n : Int) + 1)) = -((n : Int) + 1) :=
    int32wrap_eq_self _ (by simp [INT_MAX] at h; omega) (by omega)
  simp only [SetIndexFromAny, hA, if_false, hB, if_true, hC]
  rw [strtol_decimalBytes n]
  simp only [hclamp, hwrap]
  rw [he]
  simp only [List.headD_cons]
  have hc0 : ¬(c = 0 ∨ (([] : List Nat).headD 0 ≠ 0)) := by simp; omega
  simp [hc0, hwrap2]
  refine ⟨by omega, ?_⟩
  rw [if_neg (by omega : ¬(n : Int) < 0)]
  have harr : (-1 + -(n : Int)) = -((n : Int) + 1) := by ring
  rw [harr, hwrap2]

theorem setIndexFromAny_negative (n : Nat) (h1 : 1 ≤ n) (h2 : (n : Int) ≤ 2147483648) :
    SetIndexFromAny (negDecimalBytes n) = some INT_MAX := by
  have hA : ¬ (negDecimalBytes n).takeWhile (fun c => c ≠ 0) = [101, 110, 100] := by
    simp [negDecimalBytes, List.takeWhile_cons]
  have hB : ¬ (negDecimalBytes n).take 4 = [101, 110, 100, 45] := by
    simp [negDecimalBytes]
  have hclamp : strtolClamp (-(n : Int)) = -(n : Int) :=
    strtolClamp_eq_self _ (by simp [LONG_MIN]; omega) (by simp [LONG_MAX]; omega)
  have hwrap : int32wrap (-(n : Int)) = -(n : Int) :=
    int32wrap_eq_self _ (by omega) (by omega)
  simp only [SetIndexFromAny, hA, if_false, hB]
  rw [strtol_negDecimalBytes n (by omega)]
  simp only [hclamp, hwrap]
  simp [negDecimalBytes]
  omega

/-- C1 counterexample: converting the string "end" to an index yields the
sentinel -1, not the largest representable signed integer. -/
theorem setIndexFromAny_end_counterexample :
    SetIndexFromAny endBytes = some (-1) ∧ SetIndexFromAny endBytes ≠ some INT_MAX := by
  decide

/-- C1 (amended): index conversion resolves a plain nonnegative integer N
to N and `end` to the sentinel -1, with `end-N` resolving to -(N+1)
relative to that sentinel (callers map -1 to the container's last element);
a plain negative integer, and `end-` with a negative offset, resolve to
INT_MAX, an out-of-range sentinel. -/
theorem setIndexFromAny_resolution :
    (∀ n : Nat, (n : Int) ≤ INT_MAX → SetIndexFromAny (decimalBytes n) = some n) ∧
    SetIndexFromAny endBytes = some (-1) ∧
    (∀ n : Nat, (n : Int) + 1 ≤ INT_MAX →
      SetIndexFromAny (endMinusBytes n) = some (-((n : Int) + 1))) ∧
    (∀ n : Nat, 1 ≤ n → (n : Int) ≤ 2147483648 →
      SetIndexFromAny (negDecimalBytes n) = some INT_MAX) :=
  ⟨setIndexFromAny_decimal, by decide, setIndexFromAny_endMinus, setIndexFromAny_negative⟩

/-- C1 witness: the amended theorem applied at "7", "end-2" and "-5". -/
theorem setIndexFromAny_resolution_witness :
    SetIndexFromAny (decimalBytes 7) = some 7 ∧
    SetIndexFromAny (endMinusBytes 2) = some (-3) ∧
    SetIndexFromAny (negDecimalBytes 5) = some INT_MAX :=
  ⟨setIndexFromAny_resolution.1 7 (by decide),
   by have := setIndexFromAny_resolution.2.2.1 2 (by decide); simpa using this,
   setIndexFromAny_resolution.2.2.2 5 (by decide) (by decide)⟩

/-! ## C5: expression check and VM stack safety -/

set_option maxHeartbeats 1000000 in
theorem vm_run_safe (p : List ExprOpcode) :
    ∀ (oracle : List Bool) (d m k B : Nat), exprCheckSim p d = some k →
    m ≤ B → d + p.length ≤ B →
    (Jim_EvalExpression_run p oracle d m).status ≠ VMStatus.underflow ∧
    (Jim_EvalExpression_run p oracle d m).maxDepth ≤ B := by
  induction p with
  | nil =>
    intro oracle d m k B h hmB hdB
    exact ⟨by simp [Jim_EvalExpression_run], by simpa [Jim_EvalExpression_run] using hmB⟩
  | cons op rest ih =>
    intro oracle d m k B h hmB hdB
    rw [exprCheckSim] at h
    cases hstep : exprCheckStep d op with
    | none =>
      rw [hstep] at h
      simp at h
    | some d2 =>
      rw [hstep] at h
      dsimp only [] at h
      cases op
      case expNOT =>
        (simp only [exprCheckStep, isOperandOp, isUnaryOp, isBinaryOp, Bool.false_eq_true, if_false, if_true] at hstep
         split at hstep
         · exact absurd hstep (by simp)
         · rename_i hd1cond
           obtain rfl : d = d2 := Option.some.inj hstep
           by_cases he : oracle.head?.getD false = true
           · exact ⟨by simp [Jim_EvalExpression_run, vmPushPure, vmPushMayErr, vmBinaryArith, vmBinaryStr, vmUnary, he, hd1cond], by simpa [Jim_EvalExpression_run, vmPushPure, vmPushMayErr, vmBinaryArith, vmBinaryStr, vmUnary, he, hd1cond] using hmB⟩
           · have hm2 : max m d ≤ B := Nat.max_le.mpr ⟨hmB, by simp at hdB; omega⟩
             obtain ⟨h1, h2⟩ := ih oracle.tail d (max m d) k B h hm2
               (by simp at hdB ⊢; omega)
             constructor
             · simpa [Jim_EvalExpression_run, vmPushPure, vmPushMayErr, vmBinaryArith, vmBinaryStr, vmUnary, he, hd1cond] using h1
             · simpa [Jim_EvalExpression_run, vmPushPure, vmPushMayErr, vmBinaryArith, vmBinaryStr, vmUnary, he, hd1cond] using h2)
      case expBITNOT =>
        (simp only [exprCheckStep, isOperandOp, isUnaryOp, isBinaryOp, Bool.false_eq_true, if_false, if_true] at hstep
         split at hstep
         · exact absurd hstep (by simp)
         · rename_i hd1cond
           obtain rfl : d = d2 := Option.some.inj hstep
           by_cases he : oracle.head?.getD false = true
           · exact ⟨by simp [Jim_EvalExpression_run, vmPushPure, vmPushMayErr, vmBinaryArith, vmBinaryStr, vmUnary, he, hd1cond], by simpa [Jim_EvalExpression_run, vmPushPure, vmPushMayErr, vmBinaryArith, vmBinaryStr, vmUnary, he, hd1cond] using hmB⟩
           · have hm2 : max m d ≤ B := Nat.max_le.mpr ⟨hmB, by simp at hdB; omega⟩
             obtain ⟨h1, h2⟩ := ih oracle.tail d (max m d) k B h hm2
               (by simp at hdB ⊢; omega)
             constructor
             · simpa [Jim_EvalExpression_run, vmPushPure, vmPushMayErr, vmBinaryArith, vmBinaryStr, vmUnary, he, hd1cond] using h1
             · simpa [Jim_EvalExpression_run, vmPushPure, vmPushMayErr, vmBinaryArith, vmBinaryStr, vmUnary, he, hd1cond] using h2)
      case expUNARYMINUS =>
        (simp only [exprCheckStep, isOperandOp, isUnaryOp, isBinaryOp, Bool.false_eq_true, if_false, if_true] at hstep
         split at hstep
         · exact absurd hstep (by simp)
         · exact ⟨by simp [Jim_EvalExpression_run, vmPushPure, vmPushMayErr, vmBinaryArith, vmBinaryStr, vmUnary], by simpa [Jim_EvalExpression_run, vmPushPure, vmPushMayErr, vmBinaryArith, vmBinaryStr, vmUnary] using hmB⟩)
      case expUNARYPLUS =>
        (simp only [exprCheckStep, isOperandOp, isUnaryOp, isBinaryOp, Bool.false_eq_true, if_false, if_true] at hstep
         split at hstep
         · exact absurd hstep (by simp)
         · exact ⟨by simp [Jim_EvalExpression_run, vmPushPure, vmPushMayErr, vmBinaryArith, vmBinaryStr, vmUnary], by simpa [Jim_EvalExpression_run, vmPushPure, vmPushMayErr, vmBinaryArith, vmBinaryStr, vmUnary] using hmB⟩)
      case expMUL =>
        (simp only [exprCheckStep, isOperandOp, isUnaryOp, isBinaryOp, Bool.false_eq_true, if_false, if_true] at hstep
         split at hstep
         · exact absurd hstep (by simp)
         · rename_i hd2cond
           obtain rfl : d - 1 = d2 := Option.some.inj hstep
           by_cases he : oracle.head?.getD false = true
           · exact ⟨by simp [Jim_EvalExpression_run, vmPushPure, vmPushMayErr, vmBinaryArith, vmBinaryStr, vmUnary, he, hd2cond], by simpa [Jim_EvalExpression_run, vmPushPure, vmPushMayErr, vmBinaryArith, vmBinaryStr, vmUnary, he, hd2cond] using hmB⟩
           · have hm2 : max m (d - 1) ≤ B := Nat.max_le.mpr ⟨hmB, by simp at hdB; omega⟩
             obtain ⟨h1, h2⟩ := ih oracle.tail (d - 1) (max m (d - 1)) k B h hm2
               (by simp at hdB ⊢; omega)
             constructor
             · simpa [Jim_EvalExpression_run, vmPushPure, vmPushMayErr, vmBinaryArith, vmBinaryStr, vmUnary, he, hd2cond] using h1
             · simpa [Jim_EvalExpression_run, vmPushPure, vmPushMayErr, vmBinaryArith, vmBinaryStr, vmUnary, he, hd2cond] using h2)
      case expDIV =>
        (simp only [exprCheckStep, isOperandOp, isUnaryOp, isBinaryOp, Bool.false_eq_true, if_false, if_true] at hstep
         split at hstep
         · exact absurd hstep (by simp)
         · rename_i hd2cond
           obtain rfl : d - 1 = d2 := Option.some.inj hstep
           by_cases he : oracle.head?.getD false = true
           · exact ⟨by simp [Jim_EvalExpression_run, vmPushPure, vmPushMayErr, vmBinaryArith, vmBinaryStr, vmUnary, he, hd2cond], by simpa [Jim_EvalExpression_run, vmPushPure, vmPushMayErr, vmBinaryArith, vmBinaryStr, vmUnary, he, hd2cond] using hmB⟩
           · have hm2 : max m (d - 1) ≤ B := Nat.max_le.mpr ⟨hmB, by simp at hdB; omega⟩
             obtain ⟨h1, h2⟩ := ih oracle.tail (d - 1) (max m (d - 1)) k B h hm2
               (by simp at hdB ⊢; omega)
             constructor
             · simpa [Jim_EvalExpression_run, vmPushPure, vmPushMayErr, vmBinaryArith, vmBinaryStr, vmUnary, he, hd2cond] using h1
             · simpa [Jim_EvalExpression_run, vmPushPure, vmPushMayErr, vmBinaryArith, vmBinaryStr, vmUnary, he, hd2cond] using h2)
      case expMOD =>
        (simp only [exprCheckStep, isOperandOp, isUnaryOp, isBinaryOp, Bool.false_eq_true, if_false, if_true] at hstep
         split at hstep
         · exact absurd hstep (by simp)
         · rename_i hd2cond
           obtain rfl : d - 1 = d2 := Option.some.inj hstep
           by_cases he : oracle.head?.getD false = true
           · exact ⟨by simp [Jim_EvalExpression_run, vmPushPure, vmPushMayErr, vmBinaryArith, vmBinaryStr, vmUnary, he, hd2cond], by simpa [Jim_EvalExpression_run, vmPushPure, vmPushMayErr, vmBinaryArith, vmBinaryStr, vmUnary, he, hd2cond] using hmB⟩
           · have hm2 : max m (d - 1) ≤ B := Nat.max_le.mpr ⟨hmB, by simp at hdB; omega⟩
             obtain ⟨h1, h2⟩ := ih oracle.tail (d - 1) (max m (d - 1)) k B h hm2
               (by simp at hdB ⊢; omega)
             constructor
             · simpa [Jim_EvalExpression_run, vmPushPure, vmPushMayErr, vmBinaryArith, vmBinaryStr, vmUnary, he, hd2cond] using h1
             · simpa [Jim_EvalExpression_run, vmPushPure, vmPushMayErr, vmBinaryArith, vmBinaryStr, vmUnary, he, hd2cond] using h2)
      case expSUB =>
        (simp only [exprCheckStep, isOperandOp, isUnaryOp, isBinaryOp, Bool.false_eq_true, if_false, if_true] at hstep
         split at hstep
         · exact absurd hstep (by simp)
         · rename_i hd2cond
           obtain rfl : d - 1 = d2 := Option.some.inj hstep
           by_cases he : oracle.head?.getD false = true
           · exact ⟨by simp [Jim_EvalExpression_run, vmPushPure, vmPushMayErr, vmBinaryArith, vmBinaryStr, vmUnary, he, hd2cond], by simpa [Jim_EvalExpression_run, vmPushPure, vmPushMayErr, vmBinaryArith, vmBinaryStr, vmUnary, he, hd2cond] using hmB⟩
           · have hm2 : max m (d - 1) ≤ B := Nat.max_le.mpr ⟨hmB, by simp at hdB; omega⟩
             obtain ⟨h1, h2⟩ := ih oracle.tail (d - 1) (max m (d - 1)) k B h hm2
               (by simp at hdB ⊢; omega)
             constructor
             · simpa [Jim_EvalExpression_run, vmPushPure, vmPushMayErr, vmBinaryArith, vmBinaryStr, vmUnary, he, hd2cond] using h1
             · simpa [Jim_EvalExpression_run, vmPushPure, vmPushMayErr, vmBinaryArith, vmBinaryStr, vmUnary, he, hd2cond] using h2)
      case expADD =>
        (simp only [exprCheckStep, isOperandOp, isUnaryOp, isBinaryOp, Bool.false_eq_true, if_false, if_true] at hstep
         split at hstep
         · exact absurd hstep (by simp)
         · rename_i hd2cond
           obtain rfl : d - 1 = d2 := Option.some.inj hstep
           by_cases he : oracle.head?.getD false = true
           · exact ⟨by simp [Jim_EvalExpression_run, vmPushPure, vmPushMayErr, vmBinaryArith, vmBinaryStr, vmUnary, he, hd2cond], by simpa [Jim_EvalExpression_run, vmPushPure, vmPushMayErr, vmBinaryArith, vmBinaryStr, vmUnary, he, hd2cond] using hmB⟩
           · have hm2 : max m (d - 1) ≤ B := Nat.max_le.mpr ⟨hmB, by simp at hdB; omega⟩
             obtain ⟨h1, h2⟩ := ih oracle.tail (d - 1) (max m (d - 1)) k B h hm2
               (by simp at hdB ⊢; omega)
             constructor
             · simpa [Jim_EvalExpression_run, vmPushPure, vmPushMayErr, vmBinaryArith, vmBinaryStr, vmUnary, he, hd2cond] using h1
             · simpa [Jim_EvalExpression_run, vmPushPure, vmPushMayErr, vmBinaryArith, vmBinaryStr, vmUnary, he, hd2cond] using h2)
      case expLSHIFT =>
        (simp only [exprCheckStep, isOperandOp, isUnaryOp, isBinaryOp, Bool.false_eq_true, if_false, if_true] at hstep
         split at hstep
         · exact absurd hstep (by simp)
         · rename_i hd2cond
           obtain rfl : d - 1 = d2 := Option.some.inj hstep
           by_cases he : oracle.head?.getD false = true
           · exact ⟨by simp [Jim_EvalExpression_run, vmPushPure, vmPushMayErr, vmBinaryArith, vmBinaryStr, vmUnary, he, hd2cond], by simpa [Jim_EvalExpression_run, vmPushPure, vmPushMayErr, vmBinaryArith, vmBinaryStr, vmUnary, he, hd2cond] using hmB⟩
           · have hm2 : max m (d - 1) ≤ B := Nat.max_le.mpr ⟨hmB, by simp at hdB; omega⟩
             obtain ⟨h1, h2⟩ := ih oracle.tail (d - 1) (max m (d - 1)) k B h hm2
               (by simp at hdB ⊢; omega)
             constructor
             · simpa [Jim_EvalExpression_run, vmPushPure, vmPushMayErr, vmBinaryArith, vmBinaryStr, vmUnary, he, hd2cond] using h1
             · simpa [Jim_EvalExpression_run, vmPushPure, vmPushMayErr, vmBinaryArith, vmBinaryStr, vmUnary, he, hd2cond] using h2)
      case expRSHIFT =>
        (simp only [exprCheckStep, isOperandOp, isUnaryOp, isBinaryOp, Bool.false_eq_true, if_false, if_true] at hstep
         split at hstep
         · exact absurd hstep (by simp)
         · rename_i hd2cond
           obtain rfl : d - 1 = d2 := Option.some.inj hstep
           by_cases he : oracle.head?.getD false = true
           · exact ⟨by simp [Jim_EvalExpression_run, vmPushPure, vmPushMayErr, vmBinaryArith, vmBinaryStr, vmUnary, he, hd2cond], by simpa [Jim_EvalExpression_run, vmPushPure, vmPushMayErr, vmBinaryArith, vmBinaryStr, vmUnary, he, hd2cond] using hmB⟩
           · have hm2 : max m (d - 1) ≤ B := Nat.max_le.mpr ⟨hmB, by simp at hdB; omega⟩
             obtain ⟨h1, h2⟩ := ih oracle.tail (d - 1) (max m (d - 1)) k B h hm2
               (by simp at hdB ⊢; omega)
             constructor
             · simpa [Jim_EvalExpression_run, vmPushPure, vmPushMayErr, vmBinaryArith, vmBinaryStr, vmUnary, he, hd2cond] using h1
             · simpa [Jim_EvalExpression_run, vmPushPure, vmPushMayErr, vmBinaryArith, vmBinaryStr, vmUnary, he, hd2cond] using h2)
      case expROTL =>
        (simp only [exprCheckStep, isOperandOp, isUnaryOp, isBinaryOp, Bool.false_eq_true, if_false, if_true] at hstep
         split at hstep
         · exact absurd hstep (by simp)
         · rename_i hd2cond
           obtain rfl : d - 1 = d2 := Option.some.inj hstep
           by_cases he : oracle.head?.getD false = true
           · exact ⟨by simp [Jim_EvalExpression_run, vmPushPure, vmPushMayErr, vmBinaryArith, vmBinaryStr, vmUnary, he, hd2cond], by simpa [Jim_EvalExpression_run, vmPushPure, vmPushMayErr, vmBinaryArith, vmBinaryStr, vmUnary, he, hd2cond] using hmB⟩
           · have hm2 : max m (d - 1) ≤ B := Nat.max_le.mpr ⟨hmB, by simp at hdB; omega⟩
             obtain ⟨h1, h2⟩ := ih oracle.tail (d - 1) (max m (d - 1)) k B h hm2
               (by simp at hdB ⊢; omega)
             constructor
             · simpa [Jim_EvalExpression_run, vmPushPure, vmPushMayErr, vmBinaryArith, vmBinaryStr, vmUnary, he, hd2cond] using h1
             · simpa [Jim_EvalExpression_run, vmPushPure, vmPushMayErr, vmBinaryArith, vmBinaryStr, vmUnary, he, hd2cond] using h2)
      case expROTR =>
        (simp only [exprCheckStep, isOperandOp, isUnaryOp, isBinaryOp, Bool.false_eq_true, if_false, if_true] at hstep
         split at hstep
         · exact absurd hstep (by simp)
         · rename_i hd2cond
           obtain rfl : d - 1 = d2 := Option.some.inj hstep
           by_cases he : oracle.head?.getD false = true
           · exact ⟨by simp [Jim_EvalExpression_run, vmPushPure, vmPushMayErr, vmBinaryArith, vmBinaryStr, vmUnary, he, hd2cond], by simpa [Jim_EvalExpression_run, vmPushPure, vmPushMayErr, vmBinaryArith, vmBinaryStr, vmUnary, he, hd2cond] using hmB⟩
           · have hm2 : max m (d - 1) ≤ B := Nat.max_le.mpr ⟨hmB, by simp at hdB; omega⟩
             obtain ⟨h1, h2⟩ := ih oracle.tail (d - 1) (max m (d - 1)) k B h hm2
               (by simp at hdB ⊢; omega)
             constructor
             · simpa [Jim_EvalExpression_run, vmPushPure, vmPushMayErr, vmBinaryArith, vmBinaryStr, vmUnary, he, hd2cond] using h1
             · simpa [Jim_EvalExpression_run, vmPushPure, vmPushMayErr, vmBinaryArith, vmBinaryStr, vmUnary, he, hd2cond] using h2)
      case expLT =>
        (simp only [exprCheckStep, isOperandOp, isUnaryOp, isBinaryOp, Bool.false_eq_true, if_false, if_true] at hstep
         split at hstep
         · exact absurd hstep (by simp)
         · rename_i hd2cond
           obtain rfl : d - 1 = d2 := Option.some.inj hstep
           by_cases he : oracle.head?.getD false = true
           · exact ⟨by simp [Jim_EvalExpression_run, vmPushPure, vmPushMayErr, vmBinaryArith, vmBinaryStr, vmUnary, he, hd2cond], by simpa [Jim_EvalExpression_run, vmPushPure, vmPushMayErr, vmBinaryArith, vmBinaryStr, vmUnary, he, hd2cond] using hmB⟩
           · have hm2 : max m (d - 1) ≤ B := Nat.max_le.mpr ⟨hmB, by simp at hdB; omega⟩
             obtain ⟨h1, h2⟩ := ih oracle.tail (d - 1) (max m (d - 1)) k B h hm2
               (by simp at hdB ⊢; omega)
             constructor
             · simpa [Jim_EvalExpression_run, vmPushPure, vmPushMayErr, vmBinaryArith, vmBinaryStr, vmUnary, he, hd2cond] using h1
             · simpa [Jim_EvalExpression_run, vmPushPure, vmPushMayErr, vmBinaryArith, vmBinaryStr, vmUnary, he, hd2cond] using h2)
      case expGT =>
        (simp only [exprCheckStep, isOperandOp, isUnaryOp, isBinaryOp, Bool.false_eq_true, if_false, if_true] at hstep
         split at hstep
         · exact absurd hstep (by simp)
         · rename_i hd2cond
           obtain rfl : d - 1 = d2 := Option.some.inj hstep
           by_cases he : oracle.head?.getD false = true
           · exact ⟨by simp [Jim_EvalExpression_run, vmPushPure, vmPushMayErr, vmBinaryArith, vmBinaryStr, vmUnary, he, hd2cond], by simpa [Jim_EvalExpression_run, vmPushPure, vmPushMayErr, vmBinaryArith, vmBinaryStr, vmUnary, he, hd2cond] using hmB⟩
           · have hm2 : max m (d - 1) ≤ B := Nat.max_le.mpr ⟨hmB, by simp at hdB; omega⟩
             obtain ⟨h1, h2⟩ := ih oracle.tail (d - 1) (max m (d - 1)) k B h hm2
               (by simp at hdB ⊢; omega)
             constructor
             · simpa [Jim_EvalExpression_run, vmPushPure, vmPushMayErr, vmBinaryArith, vmBinaryStr, vmUnary, he, hd2cond] using h1
             · simpa [Jim_EvalExpression_run, vmPushPure, vmPushMayErr, vmBinaryArith, vmBinaryStr, vmUnary, he, hd2cond] using h2)
      case expLTE =>
        (simp only [exprCheckStep, isOperandOp, isUnaryOp, isBinaryOp, Bool.false_eq_true, if_false, if_true] at hstep
         split at hstep
         · exact absurd hstep (by simp)
         · rename_i hd2cond
           obtain rfl : d - 1 = d2 := Option.some.inj hstep
           by_cases he : oracle.head?.getD false = true
           · exact ⟨by simp [Jim_EvalExpression_run, vmPushPure, vmPushMayErr, vmBinaryArith, vmBinaryStr, vmUnary, he, hd2cond], by simpa [Jim_EvalExpression_run, vmPushPure, vmPushMayErr, vmBinaryArith, vmBinaryStr, vmUnary, he, hd2cond] using hmB⟩
           · have hm2 : max m (d - 1) ≤ B := Nat.max_le.mpr ⟨hmB, by simp at hdB; omega⟩
             obtain ⟨h1, h2⟩ := ih oracle.tail (d - 1) (max m (d - 1)) k B h hm2
               (by simp at hdB ⊢; omega)
             constructor
             · simpa [Jim_EvalExpression_run, vmPushPure, vmPushMayErr, vmBinaryArith, vmBinaryStr, vmUnary, he, hd2cond] using h1
             · simpa [Jim_EvalExpression_run, vmPushPure, vmPushMayErr, vmBinaryArith, vmBinaryStr, vmUnary, he, hd2cond] using h2)
      case expGTE =>
        (simp only [exprCheckStep, isOperandOp, isUnaryOp, isBinaryOp, Bool.false_eq_true, if_false, if_true] at hstep
         split at hstep
         · exact absurd hstep (by simp)
         · rename_i hd2cond
           obtain rfl : d - 1 = d2 := Option.some.inj hstep
           by_cases he : oracle.head?.getD false = true
           · exact ⟨by simp [Jim_EvalExpression_run, vmPushPure, vmPushMayErr, vmBinaryArith, vmBinaryStr, vmUnary, he, hd2cond], by simpa [Jim_EvalExpression_run, vmPushPure, vmPushMayErr, vmBinaryArith, vmBinaryStr, vmUnary, he, hd2cond] using hmB⟩
           · have hm2 : max m (d - 1) ≤ B := Nat.max_le.mpr ⟨hmB, by simp at hdB; omega⟩
             obtain ⟨h1, h2⟩ := ih oracle.tail (d - 1) (max m (d - 1)) k B h hm2
               (by simp at hdB ⊢; omega)
             constructor
             · simpa [Jim_EvalExpression_run, vmPushPure, vmPushMayErr, vmBinaryArith, vmBinaryStr, vmUnary, he, hd2cond] using h1
             · simpa [Jim_EvalExpression_run, vmPushPure, vmPushMayErr, vmBinaryArith, vmBinaryStr, vmUnary, he, hd2cond] using h2)
      case expNUMEQ =>
        (simp only [exprCheckStep, isOperandOp, isUnaryOp, isBinaryOp, Bool.false_eq_true, if_false, if_true] at hstep
         split at hstep
         · exact absurd hstep (by simp)
         · rename_i hd2cond
           obtain rfl : d - 1 = d2 := Option.some.inj hstep
           by_cases he : oracle.head?.getD false = true
           · exact ⟨by simp [Jim_EvalExpression_run, vmPushPure, vmPushMayErr, vmBinaryArith, vmBinaryStr, vmUnary, he, hd2cond], by simpa [Jim_EvalExpression_run, vmPushPure, vmPushMayErr, vmBinaryArith, vmBinaryStr, vmUnary, he, hd2cond] using hmB⟩
           · have hm2 : max m (d - 1) ≤ B := Nat.max_le.mpr ⟨hmB, by simp at hdB; omega⟩
             obtain ⟨h1, h2⟩ := ih oracle.tail (d - 1) (max m (d - 1)) k B h hm2
               (by simp at hdB ⊢; omega)
             constructor
             · simpa [Jim_EvalExpression_run, vmPushPure, vmPushMayErr, vmBinaryArith, vmBinaryStr, vmUnary, he, hd2cond] using h1
             · simpa [Jim_EvalExpression_run, vmPushPure, vmPushMayErr, vmBinaryArith, vmBinaryStr, vmUnary, he, hd2cond] using h2)
      case expNUMNE =>
        (simp only [exprCheckStep, isOperandOp, isUnaryOp, isBinaryOp, Bool.false_eq_true, if_false, if_true] at hstep
         split at hstep
         · exact absurd hstep (by simp)
         · rename_i hd2cond
           obtain rfl : d - 1 = d2 := Option.some.inj hstep
           by_cases he : oracle.head?.getD false = true
           · exact ⟨by simp [Jim_EvalExpression_run, vmPushPure, vmPushMayErr, vmBinaryArith, vmBinaryStr, vmUnary, he, hd2cond], by simpa [Jim_EvalExpression_run, vmPushPure, vmPushMayErr, vmBinaryArith, vmBinaryStr, vmUnary, he, hd2cond] using hmB⟩
           · have hm2 : max m (d - 1) ≤ B := Nat.max_le.mpr ⟨hmB, by simp at hdB; omega⟩
             obtain ⟨h1, h2⟩ := ih oracle.tail (d - 1) (max m (d - 1)) k B h hm2
               (by simp at hdB ⊢; omega)
             constructor
             · simpa [Jim_EvalExpression_run, vmPushPure, vmPushMayErr, vmBinaryArith, vmBinaryStr, vmUnary, he, hd2cond] using h1
             · simpa [Jim_EvalExpression_run, vmPushPure, vmPushMayErr, vmBinaryArith, vmBinaryStr, vmUnary, he, hd2cond] using h2)
      case expSTREQ =>
        (simp only [exprCheckStep, isOperandOp, isUnaryOp, isBinaryOp, Bool.false_eq_true, if_false, if_true] at hstep
         split at hstep
         · exact absurd hstep (by simp)
         · rename_i hd2cond
           obtain rfl : d - 1 = d2 := Option.some.inj hstep
           have hm2 : max m (d - 1) ≤ B := Nat.max_le.mpr ⟨hmB, by simp at hdB; omega⟩
           obtain ⟨h1, h2⟩ := ih oracle.tail (d - 1) (max m (d - 1)) k B h hm2
             (by simp at hdB ⊢; omega)
           constructor
           · simpa [Jim_EvalExpression_run, vmPushPure, vmPushMayErr, vmBinaryArith, vmBinaryStr, vmUnary, hd2cond] using h1
           · simpa [Jim_EvalExpression_run, vmPushPure, vmPushMayErr, vmBinaryArith, vmBinaryStr, vmUnary, hd2cond] using h2)
      case expSTRNE =>
        (simp only [exprCheckStep, isOperandOp, isUnaryOp, isBinaryOp, Bool.false_eq_true, if_false, if_true] at hstep
         split at hstep
         · exact absurd hstep (by simp)
         · rename_i hd2cond
           obtain rfl : d - 1 = d2 := Option.some.inj hstep
           have hm2 : max m (d - 1) ≤ B := Nat.max_le.mpr ⟨hmB, by simp at hdB; omega⟩
           obtain ⟨h1, h2⟩ := ih oracle.tail (d - 1) (max m (d - 1)) k B h hm2
             (by simp at hdB ⊢; omega)
           constructor
           · simpa [Jim_EvalExpression_run, vmPushPure, vmPushMayErr, vmBinaryArith, vmBinaryStr, vmUnary, hd2cond] using h1
           · simpa [Jim_EvalExpression_run, vmPushPure, vmPushMayErr, vmBinaryArith, vmBinaryStr, vmUnary, hd2cond] using h2)
      case expBITAND =>
        (simp only [exprCheckStep, isOperandOp, isUnaryOp, isBinaryOp, Bool.false_eq_true, if_false, if_true] at hstep
         split at hstep
         · exact absurd hstep (by simp)
         · rename_i hd2cond
           obtain rfl : d - 1 = d2 := Option.some.inj hstep
           by_cases he : oracle.head?.getD false = true
           · exact ⟨by simp [Jim_EvalExpression_run, vmPushPure, vmPushMayErr, vmBinaryArith, vmBinaryStr, vmUnary, he, hd2cond], by simpa [Jim_EvalExpression_run, vmPushPure, vmPushMayErr, vmBinaryArith, vmBinaryStr, vmUnary, he, hd2cond] using hmB⟩
           · have hm2 : max m (d - 1) ≤ B := Nat.max_le.mpr ⟨hmB, by simp at hdB; omega⟩
             obtain ⟨h1, h2⟩ := ih oracle.tail (d - 1) (max m (d - 1)) k B h hm2
               (by simp at hdB ⊢; omega)
             constructor
             · simpa [Jim_EvalExpression_run, vmPushPure, vmPushMayErr, vmBinaryArith, vmBinaryStr, vmUnary, he, hd2cond] using h1
             · simpa [Jim_EvalExpression_run, vmPushPure, vmPushMayErr, vmBinaryArith, vmBinaryStr, vmUnary, he, hd2cond] using h2)
      case expBITXOR =>
        (simp only [exprCheckStep, isOperandOp, isUnaryOp, isBinaryOp, Bool.false_eq_true, if_false, if_true] at hstep
         split at hstep
         · exact absurd hstep (by simp)
         · rename_i hd2cond
           obtain rfl : d - 1 = d2 := Option.some.inj hstep
           by_cases he : oracle.head?.getD false = true
           · exact ⟨by simp [Jim_EvalExpression_run, vmPushPure, vmPushMayErr, vmBinaryArith, vmBinaryStr, vmUnary, he, hd2cond], by simpa [Jim_EvalExpression_run, vmPushPure, vmPushMayErr, vmBinaryArith, vmBinaryStr, vmUnary, he, hd2cond] using hmB⟩
           · have hm2 : max m (d - 1) ≤ B := Nat.max_le.mpr ⟨hmB, by simp at hdB; omega⟩
             obtain ⟨h1, h2⟩ := ih oracle.tail (d - 1) (max m (d - 1)) k B h hm2
               (by simp at hdB ⊢; omega)
             constructor
             · simpa [Jim_EvalExpression_run, vmPushPure, vmPushMayErr, vmBinaryArith, vmBinaryStr, vmUnary, he, hd2cond] using h1
             · simpa [Jim_EvalExpression_run, vmPushPure, vmPushMayErr, vmBinaryArith, vmBinaryStr, vmUnary, he, hd2cond] using h2)
      case expBITOR =>
        (simp only [exprCheckStep, isOperandOp, isUnaryOp, isBinaryOp, Bool.false_eq_true, if_false, if_true] at hstep
         split at hstep
         · exact absurd hstep (by simp)
         · rename_i hd2cond
           obtain rfl : d - 1 = d2 := Option.some.inj hstep
           by_cases he : oracle.head?.getD false = true
           · exact ⟨by simp [Jim_EvalExpression_run, vmPushPure, vmPushMayErr, vmBinaryArith, vmBinaryStr, vmUnary, he, hd2cond], by simpa [Jim_EvalExpression_run, vmPushPure, vmPushMayErr, vmBinaryArith, vmBinaryStr, vmUnary, he, hd2cond] using hmB⟩
           · have hm2 : max m (d - 1) ≤ B := Nat.max_le.mpr ⟨hmB, by simp at hdB; omega⟩
             obtain ⟨h1, h2⟩ := ih oracle.tail (d - 1) (max m (d - 1)) k B h hm2
               (by simp at hdB ⊢; omega)
             constructor
             · simpa [Jim_EvalExpression_run, vmPushPure, vmPushMayErr, vmBinaryArith, vmBinaryStr, vmUnary, he, hd2cond] using h1
             · simpa [Jim_EvalExpression_run, vmPushPure, vmPushMayErr, vmBinaryArith, vmBinaryStr, vmUnary, he, hd2cond] using h2)
      case expLOGICAND =>
        (simp only [exprCheckStep, isOperandOp, isUnaryOp, isBinaryOp, Bool.false_eq_true, if_false, if_true] at hstep
         split at hstep
         · exact absurd hstep (by simp)
         · rename_i hd2cond
           obtain rfl : d - 1 = d2 := Option.some.inj hstep
           by_cases he : oracle.head?.getD false = true
           · exact ⟨by simp [Jim_EvalExpression_run, vmPushPure, vmPushMayErr, vmBinaryArith, vmBinaryStr, vmUnary, he, hd2cond], by simpa [Jim_EvalExpression_run, vmPushPure, vmPushMayErr, vmBinaryArith, vmBinaryStr, vmUnary, he, hd2cond] using hmB⟩
           · have hm2 : max m (d - 1) ≤ B := Nat.max_le.mpr ⟨hmB, by simp at hdB; omega⟩
             obtain ⟨h1, h2⟩ := ih oracle.tail (d - 1) (max m (d - 1)) k B h hm2
               (by simp at hdB ⊢; omega)
             constructor
             · simpa [Jim_EvalExpression_run, vmPushPure, vmPushMayErr, vmBinaryArith, vmBinaryStr, vmUnary, he, hd2cond] using h1
             · simpa [Jim_EvalExpression_run, vmPushPure, vmPushMayErr, vmBinaryArith, vmBinaryStr, vmUnary, he, hd2cond] using h2)
      case expLOGICOR =>
        (simp only [exprCheckStep, isOperandOp, isUnaryOp, isBinaryOp, Bool.false_eq_true, if_false, if_true] at hstep
         split at hstep
         · exact absurd hstep (by simp)
         · rename_i hd2cond
           obtain rfl : d - 1 = d2 := Option.some.inj hstep
           by_cases he : oracle.head?.getD false = true
           · exact ⟨by simp [Jim_EvalExpression_run, vmPushPure, vmPushMayErr, vmBinaryArith, vmBinaryStr, vmUnary, he, hd2cond], by simpa [Jim_EvalExpression_run, vmPushPure, vmPushMayErr, vmBinaryArith, vmBinaryStr, vmUnary, he, hd2cond] using hmB⟩
           · have hm2 : max m (d - 1) ≤ B := Nat.max_le.mpr ⟨hmB, by simp at hdB; omega⟩
             obtain ⟨h1, h2⟩ := ih oracle.tail (d - 1) (max m (d - 1)) k B h hm2
               (by simp at hdB ⊢; omega)
             constructor
             · simpa [Jim_EvalExpression_run, vmPushPure, vmPushMayErr, vmBinaryArith, vmBinaryStr, vmUnary, he, hd2cond] using h1
             · simpa [Jim_EvalExpression_run, vmPushPure, vmPushMayErr, vmBinaryArith, vmBinaryStr, vmUnary, he, hd2cond] using h2)
      case expTERNARY =>
        (exact absurd hstep (by simp [exprCheckStep, isOperandOp, isUnaryOp, isBinaryOp]))
      case expNUMBER =>
        (simp only [exprCheckStep, isOperandOp, isUnaryOp, isBinaryOp, if_true] at hstep
         obtain rfl : d + 1 = d2 := Option.some.inj hstep
         have hm2 : max m (d + 1) ≤ B := Nat.max_le.mpr ⟨hmB, by simp at hdB; omega⟩
         obtain ⟨h1, h2⟩ := ih oracle.tail (d + 1) (max m (d + 1)) k B h hm2
           (by simp at hdB ⊢; omega)
         constructor
         · simpa [Jim_EvalExpression_run, vmPushPure, vmPushMayErr, vmBinaryArith, vmBinaryStr, vmUnary] using h1
         · simpa [Jim_EvalExpression_run, vmPushPure, vmPushMayErr, vmBinaryArith, vmBinaryStr, vmUnary] using h2)
      case expCOMMAND =>
        (simp only [exprCheckStep, isOperandOp, isUnaryOp, isBinaryOp, if_true] at hstep
         obtain rfl : d + 1 = d2 := Option.some.inj hstep
         by_cases he : oracle.head?.getD false = true
         · exact ⟨by simp [Jim_EvalExpression_run, vmPushPure, vmPushMayErr, vmBinaryArith, vmBinaryStr, vmUnary, he], by simpa [Jim_EvalExpression_run, vmPushPure, vmPushMayErr, vmBinaryArith, vmBinaryStr, vmUnary, he] using hmB⟩
         · have hm2 : max m (d + 1) ≤ B := Nat.max_le.mpr ⟨hmB, by simp at hdB; omega⟩
           obtain ⟨h1, h2⟩ := ih oracle.tail (d + 1) (max m (d + 1)) k B h hm2
             (by simp at hdB ⊢; omega)
           constructor
           · simpa [Jim_EvalExpression_run, vmPushPure, vmPushMayErr, vmBinaryArith, vmBinaryStr, vmUnary, he] using h1
           · simpa [Jim_EvalExpression_run, vmPushPure, vmPushMayErr, vmBinaryArith, vmBinaryStr, vmUnary, he] using h2)
      case expVARIABLE =>
        (simp only [exprCheckStep, isOperandOp, isUnaryOp, isBinaryOp, if_true] at hstep
         obtain rfl : d + 1 = d2 := Option.some.inj hstep
         by_cases he : oracle.head?.getD false = true
         · exact ⟨by simp [Jim_EvalExpression_run, vmPushPure, vmPushMayErr, vmBinaryArith, vmBinaryStr, vmUnary, he], by simpa [Jim_EvalExpression_run, vmPushPure, vmPushMayErr, vmBinaryArith, vmBinaryStr, vmUnary, he] using hmB⟩
         · have hm2 : max m (d + 1) ≤ B := Nat.max_le.mpr ⟨hmB, by simp at hdB; omega⟩
           obtain ⟨h1, h2⟩ := ih oracle.tail (d + 1) (max m (d + 1)) k B h hm2
             (by simp at hdB ⊢; omega)
           constructor
           · simpa [Jim_EvalExpression_run, vmPushPure, vmPushMayErr, vmBinaryArith, vmBinaryStr, vmUnary, he] using h1
           · simpa [Jim_EvalExpression_run, vmPushPure, vmPushMayErr, vmBinaryArith, vmBinaryStr, vmUnary, he] using h2)
      case expDICTSUGAR =>
        (simp only [exprCheckStep, isOperandOp, isUnaryOp, isBinaryOp, if_true] at hstep
         obtain rfl : d + 1 = d2 := Option.some.inj hstep
         by_cases he : oracle.head?.getD false = true
         · exact ⟨by simp [Jim_EvalExpression_run, vmPushPure, vmPushMayErr, vmBinaryArith, vmBinaryStr, vmUnary, he], by simpa [Jim_EvalExpression_run, vmPushPure, vmPushMayErr, vmBinaryArith, vmBinaryStr, vmUnary, he] using hmB⟩
         · have hm2 : max m (d + 1) ≤ B := Nat.max_le.mpr ⟨hmB, by simp at hdB; omega⟩
           obtain ⟨h1, h2⟩ := ih oracle.tail (d + 1) (max m (d + 1)) k B h hm2
             (by simp at hdB ⊢; omega)
           constructor
           · simpa [Jim_EvalExpression_run, vmPushPure, vmPushMayErr, vmBinaryArith, vmBinaryStr, vmUnary, he] using h1
           · simpa [Jim_EvalExpression_run, vmPushPure, vmPushMayErr, vmBinaryArith, vmBinaryStr, vmUnary, he] using h2)
      case expSTRING =>
        (simp only [exprCheckStep, isOperandOp, isUnaryOp, isBinaryOp, if_true] at hstep
         obtain rfl : d + 1 = d2 := Option.some.inj hstep
         have hm2 : max m (d + 1) ≤ B := Nat.max_le.mpr ⟨hmB, by simp at hdB; omega⟩
         obtain ⟨h1, h2⟩ := ih oracle.tail (d + 1) (max m (d + 1)) k B h hm2
           (by simp at hdB ⊢; omega)
         constructor
         · simpa [Jim_EvalExpression_run, vmPushPure, vmPushMayErr, vmBinaryArith, vmBinaryStr, vmUnary] using h1
         · simpa [Jim_EvalExpression_run, vmPushPure, vmPushMayErr, vmBinaryArith, vmBinaryStr, vmUnary] using h2)

/-- C5: every program accepted by `ExprCheckCorrectness` ends its abstract
simulation at depth exactly 1; and executing such a program in the VM —
whatever the runtime outcomes of its fallible instructions — never pops an
empty operand stack, and the operand stack depth never exceeds the
program's instruction count (so a stack of capacity `expr->len`
suffices). -/
theorem exprVM_stack_safety (p : List ExprOpcode) (oracle : List Bool)
    (h : ExprCheckCorrectness p = true) :
    exprCheckSim p 0 = some 1 ∧
    (Jim_EvalExpression_run p oracle 0 0).status ≠ VMStatus.underflow ∧
    (Jim_EvalExpression_run p oracle 0 0).maxDepth ≤ p.length := by
  have hsim : exprCheckSim p 0 = some 1 := by
    unfold ExprCheckCorrectness at h
    exact of_decide_eq_true h
  obtain ⟨h1, h2⟩ := vm_run_safe p oracle 0 0 1 p.length hsim (by omega) (by omega)
  exact ⟨hsim, h1, h2⟩

/-- C5 witness: the accepted program `NUMBER NUMBER ADD` under the empty
oracle. -/
theorem exprVM_stack_safety_witness :
    exprCheckSim [ExprOpcode.expNUMBER, ExprOpcode.expNUMBER, ExprOpcode.expADD] 0 = some 1 ∧
    (Jim_EvalExpression_run [ExprOpcode.expNUMBER, ExprOpcode.expNUMBER, ExprOpcode.expADD]
        [] 0 0).status ≠ VMStatus.underflow ∧
    (Jim_EvalExpression_run [ExprOpcode.expNUMBER, ExprOpcode.expNUMBER, ExprOpcode.expADD]
        [] 0 0).maxDepth ≤ 3 :=
  exprVM_stack_safety [ExprOpcode.expNUMBER, ExprOpcode.expNUMBER, ExprOpcode.expADD] []
    (by decide)

/-! ## C8: backslash escape substitution -/

theorem odigitval_some {c v : Nat} (h : odigitval c = some v) :
    48 ≤ c ∧ c ≤ 55 ∧ v = c - 48 := by
  unfold odigitval at h
  split at h
  · rename_i hr
    exact ⟨hr.1, hr.2, (Option.some.inj h).symm⟩
  · cases h

theorem xdigitval_ne_zero {c v : Nat} (h : xdigitval c = some v) : c ≠ 0 := by
  unfold xdigitval at h
  split at h
  · omega
  · split at h
    · omega
    · split at h
      · omega
      · cases h

theorem jim_Escape_nil : Jim_Escape [] = [] := by rw [Jim_Escape]

theorem jim_Escape_single_backslash : Jim_Escape [92] = [92] := by rw [Jim_Escape]

theorem jim_Escape_backslash (c1 : Nat) (r : List Nat) :
    Jim_Escape (92 :: c1 :: r) =
      (jimEscapeDecode c1 (r.headD 0) (r.tail.headD 0)).1 ::
        Jim_Escape (r.drop (jimEscapeDecode c1 (r.headD 0) (r.tail.headD 0)).2) := by
  rw [Jim_Escape]

theorem jim_Escape_plain {c : Nat} (r : List Nat) (hc : c ≠ 92) :
    Jim_Escape (c :: r) = c :: Jim_Escape r := by
  simp [Jim_Escape, hc]

theorem jim_Escape_length (s : List Nat) : (Jim_Escape s).length ≤ s.length := by
  induction s using Jim_Escape.induct with
  | case1 => rw [Jim_Escape]
  | case2 => rw [Jim_Escape]
  | case3 c1 r d ih =>
    rw [jim_Escape_backslash]
    have hdval : d = jimEscapeDecode c1 (r.headD 0) (r.tail.headD 0) := rfl
    rw [hdval] at ih
    simp only [List.length_cons]
    have hd := List.length_drop ((jimEscapeDecode c1 (r.headD 0) (r.tail.headD 0)).2) r
    omega
  | case4 c rest h1 h2 ih =>
    have hc : c ≠ 92 := by
      intro hc
      cases rest with
      | nil => exact h1 hc rfl
      | cons a b => exact h2 a b hc rfl
    rw [jim_Escape_plain rest hc]
    simp only [List.length_cons]
    omega

/-- C8: the backslash-escape pass maps the named escapes to their control
bytes, `\x` with 1-2 hex digits and 1-3 octal digits to the encoded byte,
copies the escaped character while dropping the backslash for unknown
escapes, copies plain bytes, and never lengthens the string. -/
theorem jim_Escape_spec :
    (∀ r : List Nat,
      Jim_Escape (92 :: 97 :: r) = 7 :: Jim_Escape r ∧
      Jim_Escape (92 :: 98 :: r) = 8 :: Jim_Escape r ∧
      Jim_Escape (92 :: 102 :: r) = 12 :: Jim_Escape r ∧
      Jim_Escape (92 :: 110 :: r) = 10 :: Jim_Escape r ∧
      Jim_Escape (92 :: 114 :: r) = 13 :: Jim_Escape r ∧
      Jim_Escape (92 :: 116 :: r) = 9 :: Jim_Escape r ∧
      Jim_Escape (92 :: 118 :: r) = 11 :: Jim_Escape r) ∧
    (∀ d1 d2 v1 v2 (r : List Nat), xdigitval d1 = some v1 → xdigitval d2 = some v2 →
      Jim_Escape (92 :: 120 :: d1 :: d2 :: r) = (v1 * 16 + v2) :: Jim_Escape r) ∧
    (∀ d1 v1 (r : List Nat), xdigitval d1 = some v1 → xdigitval (r.headD 0) = none →
      Jim_Escape (92 :: 120 :: d1 :: r) = v1 :: Jim_Escape r) ∧
    (∀ c1 v1 (r : List Nat), odigitval c1 = some v1 → odigitval (r.headD 0) = none →
      Jim_Escape (92 :: c1 :: r) = v1 :: Jim_Escape r) ∧
    (∀ c1 d2 v1 w2 (r : List Nat), odigitval c1 = some v1 → odigitval d2 = some w2 →
      odigitval (r.headD 0) = none →
      Jim_Escape (92 :: c1 :: d2 :: r) = (v1 * 8 + w2) :: Jim_Escape r) ∧
    (∀ c1 d2 d3 v1 w2 w3 (r : List Nat), odigitval c1 = some v1 → odigitval d2 = some w2 →
      odigitval d3 = some w3 →
      Jim_Escape (92 :: c1 :: d2 :: d3 :: r) = ((v1 * 8 + w2) * 8 + w3) % 256 :: Jim_Escape r) ∧
    (∀ c1 (r : List Nat), c1 ≠ 97 → c1 ≠ 98 → c1 ≠ 102 → c1 ≠ 110 → c1 ≠ 114 → c1 ≠ 116 →
      c1 ≠ 118 → c1 ≠ 0 → c1 ≠ 120 → odigitval c1 = none →
      Jim_Escape (92 :: c1 :: r) = c1 :: Jim_Escape r) ∧
    (∀ c (r : List Nat), c ≠ 92 → Jim_Escape (c :: r) = c :: Jim_Escape r) ∧
    (∀ s : List Nat, (Jim_Escape s).length ≤ s.length) := by
  refine ⟨?_, ?_, ?_, ?_, ?_, ?_, ?_, fun c r hc => jim_Escape_plain r hc, jim_Escape_length⟩
  · intro r
    refine ⟨?_, ?_, ?_, ?_, ?_, ?_, ?_⟩ <;> simp [Jim_Escape, jimEscapeDecode]
  · intro d1 d2 v1 v2 r h1 h2
    rw [jim_Escape_backslash]
    simp [jimEscapeDecode, h1, h2]
  · intro d1 v1 r h1 h2
    rw [List.headD_eq_head?_getD] at h2
    rw [jim_Escape_backslash]
    simp [jimEscapeDecode, h1, h2]
  · intro c1 v1 r h1 h2
    rw [List.headD_eq_head?_getD] at h2
    obtain ⟨hc48, hc55, rfl⟩ := odigitval_some h1
    rw [jim_Escape_backslash]
    have ha : c1 ≠ 97 := by omega
    have hb : c1 ≠ 98 := by omega
    have hf : c1 ≠ 102 := by omega
    have hn : c1 ≠ 110 := by omega
    have hr : c1 ≠ 114 := by omega
    have ht : c1 ≠ 116 := by omega
    have hv : c1 ≠ 118 := by omega
    have h0 : c1 ≠ 0 := by omega
    have hx : c1 ≠ 120 := by omega
    simp [jimEscapeDecode, h1, h2, ha, hb, hf, hn, hr, ht, hv, h0, hx]
  · intro c1 d2 v1 w2 r h1 h2 h3
    rw [List.headD_eq_head?_getD] at h3
    obtain ⟨hc48, hc55, rfl⟩ := odigitval_some h1
    rw [jim_Escape_backslash]
    have ha : c1 ≠ 97 := by omega
    have hb : c1 ≠ 98 := by omega
    have hf : c1 ≠ 102 := by omega
    have hn : c1 ≠ 110 := by omega
    have hr : c1 ≠ 114 := by omega
    have ht : c1 ≠ 116 := by omega
    have hv : c1 ≠ 118 := by omega
    have h0 : c1 ≠ 0 := by omega
    have hx : c1 ≠ 120 := by omega
    simp [jimEscapeDecode, h1, h2, h3, ha, hb, hf, hn, hr, ht, hv, h0, hx]
  · intro c1 d2 d3 v1 w2 w3 r h1 h2 h3
    obtain ⟨hc48, hc55, rfl⟩ := odigitval_some h1
    rw [jim_Escape_backslash]
    have ha : c1 ≠ 97 := by omega
    have hb : c1 ≠ 98 := by omega
    have hf : c1 ≠ 102 := by omega
    have hn : c1 ≠ 110 := by omega
    have hr : c1 ≠ 114 := by omega
    have ht : c1 ≠ 116 := by omega
    have hv : c1 ≠ 118 := by omega
    have h0 : c1 ≠ 0 := by omega
    have hx : c1 ≠ 120 := by omega
    simp [jimEscapeDecode, h1, h2, h3, ha, hb, hf, hn, hr, ht, hv, h0, hx]
  · intro c1 r ha hb hf hn hr ht hv h0 hx hoct
    rw [jim_Escape_backslash]
    simp [jimEscapeDecode, ha, hb, hf, hn, hr, ht, hv, h0, hx, hoct]

/-- C8 witness: the escape clauses at `\x41`, `\n`, `\101` and an unknown
escape `\z`, plus the length bound at `\z`. -/
theorem jim_Escape_spec_witness :
    Jim_Escape [92, 120, 52, 49] = 65 :: Jim_Escape [] ∧
    Jim_Escape [92, 49, 48, 49] = 65 :: Jim_Escape [] ∧
    Jim_Escape [92, 122] = 122 :: Jim_Escape [] ∧
    (Jim_Escape [92, 122]).length ≤ 2 := by
  refine ⟨?_, ?_, ?_, ?_⟩
  · have h := jim_Escape_spec.2.1 52 49 4 1 [] (by decide) (by decide)
    simpa using h
  · have h := jim_Escape_spec.2.2.2.2.2.1 49 48 49 1 0 1 [] (by decide) (by decide) (by decide)
    simpa using h
  · exact jim_Escape_spec.2.2.2.2.2.2.1 122 [] (by decide) (by decide) (by decide)
      (by decide) (by decide) (by decide) (by decide) (by decide) (by decide) (by decide)
  · simpa using jim_Escape_spec.2.2.2.2.2.2.2.2 [92, 122]

/-! ## C10: reference parsing -/

theorem dropWhile_eq32_replicate_append (a : Nat) (l : List Nat) :
    (List.replicate a 32 ++ l).dropWhile (fun c => c = 32) =
      l.dropWhile (fun c => c = 32) := by
  induction a with
  | zero => simp
  | succ n ih => rw [List.replicate_succ, List.cons_append, List.dropWhile_cons_of_pos (by simp)]; exact ih

theorem takeWhile_eq32_replicate (l : List Nat) :
    l.takeWhile (fun c => c = 32) =
      List.replicate (l.takeWhile (fun c => c = 32)).length 32 := by
  apply List.eq_replicate_of_mem
  intro b hb
  have hb2 := List.mem_takeWhile_imp hb
  simp only [decide_eq_true_eq] at hb2
  exact hb2

theorem trimSpaces_decomp (s : List Nat) :
    ∃ a b : Nat, s = List.replicate a 32 ++ trimSpaces s ++ List.replicate b 32 := by
  unfold trimSpaces
  by_cases he : (s.dropWhile (fun c => c = 32)).isEmpty
  · refine ⟨(s.takeWhile (fun c => c = 32)).length, 0, ?_⟩
    have h2 : s.dropWhile (fun c => decide (c = 32)) = [] := List.isEmpty_iff.mp he
    have h3 := List.takeWhile_append_dropWhile (fun c => decide (c = 32)) s
    rw [h2, List.append_nil] at h3
    simp only [he, if_true]
    rw [← takeWhile_eq32_replicate s, h3]
    simp
  · refine ⟨(s.takeWhile (fun c => c = 32)).length,
      ((s.dropWhile (fun c => c = 32)).reverse.takeWhile (fun c => c = 32)).length, ?_⟩
    simp only [he, if_false]
    have e1 : List.replicate (s.takeWhile (fun c => decide (c = 32))).length 32 =
        s.takeWhile (fun c => decide (c = 32)) := (takeWhile_eq32_replicate s).symm
    have e2 : ((s.dropWhile (fun c => decide (c = 32))).reverse.takeWhile
          (fun c => decide (c = 32))).reverse =
        List.replicate ((s.dropWhile (fun c => decide (c = 32))).reverse.takeWhile
          (fun c => decide (c = 32))).length 32 := by
      conv_lhs =>
        rw [takeWhile_eq32_replicate (s.dropWhile (fun c => decide (c = 32))).reverse]
      exact List.reverse_replicate _ _
    have h5 : s.dropWhile (fun c => decide (c = 32)) =
        ((s.dropWhile (fun c => decide (c = 32))).reverse.dropWhile
          (fun c => decide (c = 32))).reverse ++
          ((s.dropWhile (fun c => decide (c = 32))).reverse.takeWhile
            (fun c => decide (c = 32))).reverse := by
      conv_lhs =>
        rw [← List.reverse_reverse (s.dropWhile (fun c => decide (c = 32))),
          ← List.takeWhile_append_dropWhile (fun c => decide (c = 32))
            (s.dropWhile (fun c => decide (c = 32))).reverse]
      rw [List.reverse_append]
    conv_lhs =>
      rw [← List.takeWhile_append_dropWhile (fun c => decide (c = 32)) s, h5]
    rw [e1, ← e2, List.append_assoc]
    simp

theorem trimSpaces_replicate (a b : Nat) (core : List Nat) (hne : core ≠ [])
    (hc : core.headD 0 ≠ 32) (hd : core.reverse.headD 0 ≠ 32) :
    trimSpaces (List.replicate a 32 ++ core ++ List.replicate b 32) = core := by
  obtain ⟨c, l, rfl⟩ := List.exists_cons_of_ne_nil hne
  have hrevne : (c :: l).reverse ≠ [] := by simp
  obtain ⟨d, m, hrev⟩ := List.exists_cons_of_ne_nil hrevne
  simp only [List.headD_cons] at hc
  rw [hrev] at hd
  simp only [List.headD_cons] at hd
  unfold trimSpaces
  have hdrop : ((List.replicate a 32 ++ (c :: l)) ++ List.replicate b 32).dropWhile
      (fun x => x = 32) = (c :: l) ++ List.replicate b 32 := by
    rw [List.append_assoc, dropWhile_eq32_replicate_append]
    simp [List.dropWhile_cons, hc]
  rw [hdrop]
  rw [if_neg (by simp)]
  have hrev2 : ((c :: l) ++ List.replicate b 32).reverse =
      List.replicate b 32 ++ (d :: m) := by
    rw [List.reverse_append, List.reverse_replicate, hrev]
  rw [hrev2, dropWhile_eq32_replicate_append]
  have hdrop2 : (d :: m).dropWhile (fun x => x = 32) = d :: m := by
    simp [List.dropWhile_cons, hd]
  rw [hdrop2, ← hrev, List.reverse_reverse]

theorem setReferenceFromAnyCore_some (references : Int → Bool) (s : List Nat) (v : Int)
    (h : SetReferenceFromAnyCore references s = some v) :
    ∃ a b mid, s = List.replicate a 32 ++ (refPrefixBytes ++ mid ++ [58]) ++
        List.replicate b 32 ∧
      mid.length = 20 ∧ Jim_StringToWide mid 10 = some v ∧ references v = true := by
  simp only [SetReferenceFromAnyCore, JIM_REFERENCE_SPACE] at h
  by_cases h1 : s.length < 32
  · rw [if_pos h1] at h; exact Option.noConfusion h
  rw [if_neg h1] at h
  by_cases h2 : (trimSpaces s).length ≠ 32
  · rw [if_pos h2] at h; exact Option.noConfusion h
  rw [if_neg h2] at h
  by_cases h3 : (trimSpaces s).take 11 ≠ refPrefixBytes
  · rw [if_pos h3] at h; exact Option.noConfusion h
  rw [if_neg h3] at h
  by_cases h4 : (trimSpaces s).getD 31 0 ≠ 58
  · rw [if_pos h4] at h; exact Option.noConfusion h
  rw [if_neg h4] at h
  cases hw : Jim_StringToWide (((trimSpaces s).drop 11).take 20) 10 with
  | none => rw [hw] at h; exact Option.noConfusion h
  | some w =>
    rw [hw] at h
    dsimp only [] at h
    by_cases h5 : references w = true
    · rw [if_pos h5] at h
      obtain rfl := Option.some.inj h
      push_neg at h2 h3 h4
      obtain ⟨a, b, hdecomp⟩ := trimSpaces_decomp s
      have hlen31 : ((trimSpaces s).drop 31).length = 1 := by
        rw [List.length_drop, h2]
      obtain ⟨x, hx⟩ := List.length_eq_one.mp hlen31
      have hx58 : x = 58 := by
        have hq : (trimSpaces s)[31]? = some x := by
          have := List.getElem?_drop (trimSpaces s) 31 0
          rw [hx] at this
          simpa using this.symm
        have := List.getD_eq_getElem?_getD (trimSpaces s) 31 0
        rw [hq] at this
        rw [h4] at this
        exact this.symm
      have hmidlen : (((trimSpaces s).drop 11).take 20).length = 20 := by
        simp [List.length_take, List.length_drop, h2]
      have hdrop11 : (trimSpaces s).drop 11 = ((trimSpaces s).drop 11).take 20 ++ [58] := by
        conv_lhs => rw [← List.take_append_drop 20 ((trimSpaces s).drop 11)]
        rw [List.drop_drop]
        rw [show (11 + 20 : Nat) = 31 from rfl, hx, hx58]
      have hcore_decomp : trimSpaces s =
          refPrefixBytes ++ ((trimSpaces s).drop 11).take 20 ++ [58] := by
        conv_lhs => rw [← List.take_append_drop 11 (trimSpaces s), h3, hdrop11]
        rw [List.append_assoc]
      refine ⟨a, b, ((trimSpaces s).drop 11).take 20, ?_, hmidlen, hw, h5⟩
      rw [← hcore_decomp]
      exact hdecomp
    · rw [if_neg h5] at h; exact Option.noConfusion h

theorem setReferenceFromAnyCore_complete (references : Int → Bool) (a b : Nat)
    (mid : List Nat) (v : Int) (hlen : mid.length = 20)
    (hw : Jim_StringToWide mid 10 = some v) (href : references v = true) :
    SetReferenceFromAnyCore references
      (List.replicate a 32 ++ (refPrefixBytes ++ mid ++ [58]) ++ List.replicate b 32) =
      some v := by
  have htrim : trimSpaces (List.replicate a 32 ++ (refPrefixBytes ++ mid ++ [58]) ++
      List.replicate b 32) = refPrefixBytes ++ mid ++ [58] := by
    apply trimSpaces_replicate
    · simp [refPrefixBytes]
    · simp [refPrefixBytes]
    · simp [refPrefixBytes, List.reverse_append]
  have hclen : (refPrefixBytes ++ mid ++ [58]).length = 32 := by
    simp [refPrefixBytes, hlen]
  have htake : (refPrefixBytes ++ mid ++ [58]).take 11 = refPrefixBytes := by
    rw [List.append_assoc]
    exact List.take_left' (by simp [refPrefixBytes])
  have h11 : refPrefixBytes.length = 11 := by simp [refPrefixBytes]
  have hgetD : (refPrefixBytes ++ mid ++ [58]).getD 31 0 = 58 := by
    rw [List.getD_eq_getElem?_getD, List.append_assoc]
    rw [List.getElem?_append_right (by omega)]
    rw [List.getElem?_append_right (by omega)]
    simp [h11, hlen]
  have hdrop : ((refPrefixBytes ++ mid ++ [58]).drop 11).take 20 = mid := by
    have e : (refPrefixBytes ++ (mid ++ [58])).drop 11 = mid ++ [58] :=
      List.drop_left' h11
    rw [List.append_assoc, e]
    exact List.take_left' hlen
  simp only [SetReferenceFromAnyCore, JIM_REFERENCE_SPACE]
  rw [if_neg (by simp [refPrefixBytes, hlen]; omega)]
  rw [htrim]
  rw [if_neg (by rw [hclen]; omega)]
  rw [if_neg (by rw [htake]; simp)]
  rw [if_neg (by rw [hgetD]; omega)]
  rw [hdrop, hw]
  simp [href]

/-- C10: interpreting a value as a reference succeeds exactly when its
string form, after stripping leading and trailing spaces, is the 32 bytes
`~reference:<20 decimal bytes>:` with the parsed id present in the
reference table (so surrounding spaces are tolerated, and any other
string -- including a valid token surrounded by non-space text -- fails);
on failure the value's type and representations are left unchanged and
`Jim_GetReference` reports the error. -/
theorem setReferenceFromAny_spec (references : Int → Bool) (o : JimObjRefView) :
    ((SetReferenceFromAny references o).2 = true ↔
      ∃ a b mid id, o.bytes = List.replicate a 32 ++ (refPrefixBytes ++ mid ++ [58]) ++
          List.replicate b 32 ∧
        mid.length = 20 ∧ Jim_StringToWide mid 10 = some id ∧ references id = true) ∧
    ((SetReferenceFromAny references o).2 = false → (SetReferenceFromAny references o).1 = o) ∧
    (o.typeIsReference = false → (SetReferenceFromAny references o).2 = false →
      Jim_GetReference references o = (o, none)) := by
  refine ⟨⟨?_, ?_⟩, ?_, ?_⟩
  · intro h
    unfold SetReferenceFromAny at h
    cases hc : SetReferenceFromAnyCore references o.bytes with
    | none => rw [hc] at h; exact absurd h (by simp)
    | some v =>
      obtain ⟨a, b, mid, h1, h2, h3, h4⟩ := setReferenceFromAnyCore_some references o.bytes v hc
      exact ⟨a, b, mid, v, h1, h2, h3, h4⟩
  · rintro ⟨a, b, mid, id, hbytes, hlen, hw, href⟩
    unfold SetReferenceFromAny
    rw [hbytes, setReferenceFromAnyCore_complete references a b mid id hlen hw href]
  · intro h
    unfold SetReferenceFromAny at h ⊢
    cases hc : SetReferenceFromAnyCore references o.bytes with
    | none => rfl
    | some v => rw [hc] at h; exact absurd h (by simp)
  · intro ht h
    unfold Jim_GetReference
    rw [ht]
    unfold SetReferenceFromAny at h ⊢
    cases hc : SetReferenceFromAnyCore references o.bytes with
    | none => simp
    | some v => rw [hc] at h; exact absurd h (by simp)

/-- C10 witness: a padded valid token `  ~reference:<00000000000000000035>: `
converts successfully, and a malformed value is rejected with the value
left untouched. -/
theorem setReferenceFromAny_spec_witness :
    (SetReferenceFromAny (fun id => id == 35)
      ⟨List.replicate 2 32 ++ (refPrefixBytes ++ (List.replicate 18 48 ++ [51, 53]) ++ [58]) ++
        List.replicate 1 32, false, none⟩).2 = true ∧
    Jim_GetReference (fun id => id == 35) ⟨[126, 120], false, none⟩ =
      (⟨[126, 120], false, none⟩, none) := by
  constructor
  · exact (setReferenceFromAny_spec (fun id => id == 35)
      ⟨List.replicate 2 32 ++ (refPrefixBytes ++ (List.replicate 18 48 ++ [51, 53]) ++ [58]) ++
        List.replicate 1 32, false, none⟩).1.mpr
      ⟨2, 1, List.replicate 18 48 ++ [51, 53], 35, rfl, by decide, by decide, by decide⟩
  · exact (setReferenceFromAny_spec (fun id => id == 35)
      ⟨[126, 120], false, none⟩).2.2 rfl (by decide)

/-! ## C9: lappend on a shared list value -/

theorem heapModify_get_self (h : List JimObjList) (id : Nat) (f : JimObjList → JimObjList)
    (o : JimObjList) (ho : h.get? id = some o) :
    (heapModify h id f).get? id = some (f o) := by
  unfold heapModify
  rw [ho]
  rw [List.get?_eq_getElem?] at ho ⊢
  refine List.getElem?_set_self ?_
  by_contra hc
  rw [List.getElem?_eq_none (by omega)] at ho
  exact Option.noConfusion ho

theorem heapModify_get_ne (h : List JimObjList) (id j : Nat) (f : JimObjList → JimObjList)
    (hne : id ≠ j) : (heapModify h id f).get? j = h.get? j := by
  unfold heapModify
  cases ho : h.get? id with
  | none => rfl
  | some o =>
    rw [List.get?_eq_getElem?, List.get?_eq_getElem?]
    exact List.getElem?_set_ne hne

theorem listAppend_foldl (news : List Nat) (st : JimInterpVars) (id : Nat) (o : JimObjList)
    (h : st.heap.get? id = some o) :
    (news.foldl (fun s e => Jim_ListAppendElement s id e) st).vars = st.vars ∧
    (news.foldl (fun s e => Jim_ListAppendElement s id e) st).heap.get? id =
      some { o with ele := o.ele ++ news } ∧
    ∀ j, j ≠ id →
      (news.foldl (fun s e => Jim_ListAppendElement s id e) st).heap.get? j =
        st.heap.get? j := by
  induction news generalizing st o with
  | nil => exact ⟨rfl, by simpa using h, fun j _ => rfl⟩
  | cons e rest ih =>
    have h1 : (Jim_ListAppendElement st id e).heap.get? id =
        some { o with ele := o.ele ++ [e] } :=
      heapModify_get_self st.heap id _ o h
    obtain ⟨hv, hg, ho⟩ := ih (Jim_ListAppendElement st id e) { o with ele := o.ele ++ [e] } h1
    refine ⟨hv, ?_, ?_⟩
    · rw [List.foldl_cons]
      simpa [List.append_assoc] using hg
    · intro j hj
      rw [List.foldl_cons]
      rw [ho j hj]
      exact heapModify_get_ne st.heap id j _ (fun hh => hj hh.symm)

theorem find_rebind (vars : List (String × Nat)) (name : String) (newId : Nat)
    (h : (vars.find? (fun e => e.1 = name)).isSome = true) :
    (vars.map (fun e => if e.1 = name then (e.1, newId) else e)).find?
      (fun e => e.1 = name) = some (name, newId) := by
  induction vars with
  | nil => simp [List.find?] at h
  | cons hd tl ih =>
    by_cases hh : hd.1 = name
    · simp [List.find?_cons, hh]
    · rw [List.map_cons, if_neg hh]
      rw [List.find?_cons_of_neg _ (by simpa using hh)]
      rw [List.find?_cons_of_neg _ (by simpa using hh)] at h
      exact ih h

theorem getVariable_vars_eq (i1 i2 : JimInterpVars) (name : String)
    (h : i1.vars = i2.vars) : Jim_GetVariable i1 name = Jim_GetVariable i2 name := by
  unfold Jim_GetVariable
  rw [h]

/-- C9: `lappend` on a variable holding a shared list value (refcount > 1)
duplicates the value, appends the new elements to the duplicate (a fresh
object), re-binds the variable to the duplicate, and leaves the original
object's elements unchanged. -/
theorem lappend_shared_copy (i : JimInterpVars) (name : String) (newEles : List Nat)
    (listId : Nat) (obj : JimObjList)
    (hv : Jim_GetVariable i name = some listId)
    (hobj : i.heap.get? listId = some obj)
    (hsh : obj.refCount > 1) :
    (Jim_LappendCoreCommand i name newEles).2 = i.heap.length ∧
    listId ≠ i.heap.length ∧
    Jim_GetVariable (Jim_LappendCoreCommand i name newEles).1 name = some i.heap.length ∧
    ((Jim_LappendCoreCommand i name newEles).1.heap.get? i.heap.length).map JimObjList.ele =
      some (obj.ele ++ newEles) ∧
    ((Jim_LappendCoreCommand i name newEles).1.heap.get? listId).map JimObjList.ele =
      some obj.ele := by
  have hlt : listId < i.heap.length := by
    obtain ⟨hl, -⟩ := List.get?_eq_some.mp hobj
    exact hl
  have hne : listId ≠ i.heap.length := by omega
  have hgetElem : i.heap[listId]? = some obj := by
    rw [← List.get?_eq_getElem?]
    exact hobj
  have hgetD : i.heap.getD listId ⟨0, []⟩ = obj := by
    rw [List.getD_eq_getElem?_getD, hgetElem]
    rfl
  have hshared : Jim_IsShared obj = true := by
    simp only [Jim_IsShared, decide_eq_true_eq]
    exact hsh
  have hfindSome : (i.vars.find? (fun e => e.1 = name)).isSome = true := by
    unfold Jim_GetVariable at hv
    cases hfind : i.vars.find? (fun e => e.1 = name) with
    | none => rw [hfind] at hv; exact Option.noConfusion hv
    | some e => rfl
  have hr : Jim_LappendCoreCommand i name newEles =
      (Jim_SetVariable
        (newEles.foldl (fun st e => Jim_ListAppendElement st i.heap.length e)
          { i with heap := i.heap ++ [⟨0, obj.ele⟩] })
        name i.heap.length, i.heap.length) := by
    simp only [Jim_LappendCoreCommand, hv, Jim_DuplicateObj, hgetD, hshared, if_true]
  have hbase : (({ i with heap := i.heap ++ [⟨0, obj.ele⟩] } : JimInterpVars)).heap.get?
      i.heap.length = some ⟨0, obj.ele⟩ := by
    show (i.heap ++ [(⟨0, obj.ele⟩ : JimObjList)]).get? i.heap.length = _
    rw [List.get?_eq_getElem?]
    exact List.getElem?_concat_length i.heap ⟨0, obj.ele⟩
  obtain ⟨hfv, hfg, hfo⟩ := listAppend_foldl newEles
    { i with heap := i.heap ++ [⟨0, obj.ele⟩] } i.heap.length ⟨0, obj.ele⟩ hbase
  have hfv2 : (newEles.foldl (fun st e => Jim_ListAppendElement st i.heap.length e)
      { i with heap := i.heap ++ [⟨0, obj.ele⟩] }).vars = i.vars := hfv
  have hfg2 : (newEles.foldl (fun st e => Jim_ListAppendElement st i.heap.length e)
      { i with heap := i.heap ++ [⟨0, obj.ele⟩] }).heap.get? i.heap.length =
      some ⟨0, obj.ele ++ newEles⟩ := hfg
  have hFlist : (newEles.foldl (fun st e => Jim_ListAppendElement st i.heap.length e)
      { i with heap := i.heap ++ [⟨0, obj.ele⟩] }).heap.get? listId = some obj := by
    rw [hfo listId hne]
    show (i.heap ++ [(⟨0, obj.ele⟩ : JimObjList)]).get? listId = some obj
    rw [List.get?_eq_getElem?, List.getElem?_append_left hlt, hgetElem]
  rw [hr]
  clear hr hfv hfg hfo hbase
  generalize hFdef : newEles.foldl (fun st e => Jim_ListAppendElement st i.heap.length e)
    { i with heap := i.heap ++ [⟨0, obj.ele⟩] } = F at hfv2 hfg2 hFlist ⊢
  have hgvF : Jim_GetVariable F name = some listId := by
    rw [getVariable_vars_eq F i name hfv2]
    exact hv
  have hset : Jim_SetVariable F name i.heap.length =
      Jim_IncrRefCount
        { Jim_DecrRefCount F listId with
          vars := (Jim_DecrRefCount F listId).vars.map
            (fun e => if e.1 = name then (e.1, i.heap.length) else e) }
        i.heap.length := by
    simp only [Jim_SetVariable, hgvF]
  refine ⟨rfl, hne, ?_, ?_, ?_⟩
  · show Jim_GetVariable (Jim_SetVariable F name i.heap.length) name = some i.heap.length
    rw [hset]
    have hvS : (Jim_IncrRefCount
        { Jim_DecrRefCount F listId with
          vars := (Jim_DecrRefCount F listId).vars.map
            (fun e => if e.1 = name then (e.1, i.heap.length) else e) }
        i.heap.length).vars =
        i.vars.map (fun e => if e.1 = name then (e.1, i.heap.length) else e) := by
      show F.vars.map (fun e => if e.1 = name then (e.1, i.heap.length) else e) = _
      rw [hfv2]
    unfold Jim_GetVariable
    rw [hvS, find_rebind i.vars name i.heap.length hfindSome]
  · show ((Jim_SetVariable F name i.heap.length).heap.get? i.heap.length).map JimObjList.ele =
      some (obj.ele ++ newEles)
    rw [hset]
    show ((heapModify (heapModify F.heap listId (fun o => { o with refCount := o.refCount - 1 }))
        i.heap.length (fun o => { o with refCount := o.refCount + 1 })).get?
        i.heap.length).map JimObjList.ele = some (obj.ele ++ newEles)
    have hd1 : (heapModify F.heap listId
        (fun o => { o with refCount := o.refCount - 1 })).get? i.heap.length =
        some ⟨0, obj.ele ++ newEles⟩ := by
      rw [heapModify_get_ne F.heap listId i.heap.length _ hne]
      exact hfg2
    rw [heapModify_get_self _ i.heap.length _ _ hd1]
    rfl
  · show ((Jim_SetVariable F name i.heap.length).heap.get? listId).map JimObjList.ele =
      some obj.ele
    rw [hset]
    show ((heapModify (heapModify F.heap listId (fun o => { o with refCount := o.refCount - 1 }))
        i.heap.length (fun o => { o with refCount := o.refCount + 1 })).get?
        listId).map JimObjList.ele = some obj.ele
    rw [heapModify_get_ne _ i.heap.length listId _ (fun hh => hne hh.symm)]
    rw [heapModify_get_self F.heap listId _ obj hFlist]
    rfl

/-- C9 witness: `lappend l 12` on heap `[⟨refcount 2, [10, 11]⟩]` with
`l` bound to object 0 re-binds `l` to the fresh object 1 holding
`[10, 11, 12]`, while object 0 still holds `[10, 11]`. -/
theorem lappend_shared_copy_witness :
    (Jim_LappendCoreCommand ⟨[⟨2, [10, 11]⟩], [("l", 0)]⟩ "l" [12]).2 = 1 ∧
    Jim_GetVariable (Jim_LappendCoreCommand ⟨[⟨2, [10, 11]⟩], [("l", 0)]⟩ "l" [12]).1 "l" =
      some 1 ∧
    ((Jim_LappendCoreCommand ⟨[⟨2, [10, 11]⟩], [("l", 0)]⟩ "l" [12]).1.heap.get? 1).map
      JimObjList.ele = some [10, 11, 12] ∧
    ((Jim_LappendCoreCommand ⟨[⟨2, [10, 11]⟩], [("l", 0)]⟩ "l" [12]).1.heap.get? 0).map
      JimObjList.ele = some [10, 11] := by
  obtain ⟨h1, -, h3, h4, h5⟩ := lappend_shared_copy ⟨[⟨2, [10, 11]⟩], [("l", 0)]⟩ "l" [12] 0
    ⟨2, [10, 11]⟩ (by decide) (by decide) (by decide)
  exact ⟨h1, h3, h4, h5⟩

/-! ## C7: when `#` begins a comment -/

/-- C7 counterexample: in `"  #x\nb"` the first emission is a `SEP` token
(not an `EOL`), yet the following `#` still begins a comment (no emitted
token contains the `#` or the `x`); the spec's "only when the previous
emission was an `EOL` token" is wrong for the script start.  By contrast,
after a word and a separator `#` really is ordinary text. -/
theorem parse_comment_after_sep_counterexample :
    JimTokenizeScript [32, 32, 35, 120, 10, 98] =
      [(ttSEP, [32, 32]), (ttESC, [98]), (ttEOL, [])] ∧
    JimTokenizeScript [97, 32, 35, 120] =
      [(ttESC, [97]), (ttSEP, [32]), (ttESC, [35, 120]), (ttEOL, [])] := by
  constructor
  · rfl
  · rfl

/-- C7: `#` begins a comment exactly when the parser's comment flag is
set; the flag is set at initialization (so a `#` before any emission
begins a comment) and by end-of-line emissions, it is preserved by
separator emissions, and it is cleared by ordinary-word emissions. -/
theorem jimParseScript_comment_flag :
    (∀ s, (JimParserInit s).comment = true) ∧
    (∀ (pc : JimParserCtx) (r : List Nat), pc.input = 35 :: r → pc.comment = true →
      JimParseScript1 pc =
        ScriptStep.skipComment { pc with input := JimParseComment pc.input }) ∧
    (∀ (pc : JimParserCtx) (r : List Nat), pc.input = 35 :: r → pc.comment = false →
      JimParseScript1 pc = scriptStrEmit pc) ∧
    (∀ (pc : JimParserCtx) (c : Nat) (r : List Nat), pc.input = c :: r →
      (c = 32 ∨ c = 9 ∨ c = 13) → pc.state = false →
      JimParseScript1 pc = ScriptStep.emit (jimParseSepGo (c :: r)).1
        { pc with input := (jimParseSepGo (c :: r)).2, tt := ttSEP }) ∧
    (∀ (pc : JimParserCtx) (c : Nat) (r : List Nat), pc.input = c :: r →
      (c = 10 ∨ c = 59) → pc.state = false →
      JimParseScript1 pc = ScriptStep.emit (JimParseEol (c :: r)).1
        { pc with input := (JimParseEol (c :: r)).2, tt := ttEOL, comment := true }) ∧
    (∀ (pc : JimParserCtx) (c : Nat) (r : List Nat), pc.input = c :: r →
      c ≠ 0 → c ≠ 92 → c ≠ 32 → c ≠ 9 → c ≠ 13 → c ≠ 10 → c ≠ 59 → c ≠ 91 → c ≠ 36 →
      c ≠ 35 →
      JimParseScript1 pc = scriptStrEmit { pc with comment := false }) := by
  refine ⟨fun s => rfl, ?_, ?_, ?_, ?_, ?_⟩
  · intro pc r hin hc
    simp [JimParseScript1, hin, hc]
  · intro pc r hin hc
    simp [JimParseScript1, hin, hc]
  · intro pc c r hin hc hs
    have h0 : c ≠ 0 := by omega
    have h92 : c ≠ 92 := by omega
    simp [JimParseScript1, hin, h0, h92, hc, hs]
  · intro pc c r hin hc hs
    have h0 : c ≠ 0 := by omega
    have h92 : c ≠ 92 := by omega
    have h32 : c ≠ 32 := by omega
    have h9 : c ≠ 9 := by omega
    have h13 : c ≠ 13 := by omega
    simp [JimParseScript1, hin, h0, h92, h32, h9, h13, hc, hs]
  · intro pc c r hin h0 h92 h32 h9 h13 h10 h59 h91 h36 h35
    simp [JimParseScript1, hin, h0, h92, h32, h9, h13, h10, h59, h91, h36, h35]

/-- C7 witness: the flag rules applied at concrete states: a `#` with the
flag set (first emission pending) is skipped as a comment; a `#` with the
flag cleared is parsed as string text; a separator emission preserves the
cleared flag; a newline emission sets it. -/
theorem jimParseScript_comment_flag_witness :
    (JimParserInit [35, 120]).comment = true ∧
    JimParseScript1 ⟨[35, 120], ttSEP, false, true, false⟩ =
      ScriptStep.skipComment ⟨[], ttSEP, false, true, false⟩ ∧
    JimParseScript1 ⟨[35, 120], ttSEP, false, false, false⟩ =
      ScriptStep.emit [35, 120] ⟨[], ttESC, false, false, false⟩ ∧
    JimParseScript1 ⟨[32, 35], ttESC, false, false, false⟩ =
      ScriptStep.emit [32] ⟨[35], ttSEP, false, false, false⟩ ∧
    JimParseScript1 ⟨[10, 35], ttESC, false, false, false⟩ =
      ScriptStep.emit [10] ⟨[35], ttEOL, false, true, false⟩ ∧
    JimParseScript1 ⟨[98], ttEOL, false, true, false⟩ =
      ScriptStep.emit [98] ⟨[], ttESC, false, false, false⟩ := by
  refine ⟨jimParseScript_comment_flag.1 [35, 120], ?_, ?_, ?_, ?_, ?_⟩
  · rw [jimParseScript_comment_flag.2.1 ⟨[35, 120], ttSEP, false, true, false⟩ [120] rfl rfl]
    rfl
  · rw [jimParseScript_comment_flag.2.2.1 ⟨[35, 120], ttSEP, false, false, false⟩ [120] rfl rfl]
    rfl
  · rw [jimParseScript_comment_flag.2.2.2.1 ⟨[32, 35], ttESC, false, false, false⟩ 32 [35]
      rfl (by decide) rfl]
    rfl
  · rw [jimParseScript_comment_flag.2.2.2.2.1 ⟨[10, 35], ttESC, false, false, false⟩ 10 [35]
      rfl (by decide) rfl]
    rfl
  · rw [jimParseScript_comment_flag.2.2.2.2.2 ⟨[98], ttEOL, false, true, false⟩ 98 []
      rfl (by decide) (by decide) (by decide) (by decide) (by decide) (by decide)
      (by decide) (by decide) (by decide) (by decide)]
    rfl

/-! ## C6: list quoting round-trip -/

theorem escape_no_backslash (s : List Nat) (h : 92 ∉ s) : Jim_Escape s = s := by
  induction s with
  | nil => exact jim_Escape_nil
  | cons c r ih =>
    have hc : c ≠ 92 := fun hh => h (hh ▸ List.mem_cons_self c r)
    rw [jim_Escape_plain r hc, ih (fun hm => h (List.mem_cons_of_mem c hm))]

theorem escape_bqs (e : List Nat) (h : 0 ∉ e) : Jim_Escape (BackslashQuoteString e) = e := by
  induction e with
  | nil => exact jim_Escape_nil
  | cons c r ih =>
    have hc : c ≠ 0 := fun hh => h (hh ▸ List.mem_cons_self c r)
    have ih2 := ih (fun hm => h (List.mem_cons_of_mem c hm))
    rw [BackslashQuoteString, if_neg hc]
    by_cases h1 : c = 32 ∨ c = 36 ∨ c = 34 ∨ c = 91 ∨ c = 93 ∨ c = 123 ∨ c = 125 ∨
        c = 59 ∨ c = 92
    · rw [backslashQuoteByte, if_pos h1]
      rw [List.cons_append, List.cons_append, List.nil_append]
      rw [jim_Escape_backslash]
      rcases h1 with h1 | h1 | h1 | h1 | h1 | h1 | h1 | h1 | h1 <;>
        subst h1 <;> simp [jimEscapeDecode, odigitval, ih2]
    · by_cases h10 : c = 10
      · subst h10
        rw [backslashQuoteByte]
        rw [if_neg (by omega), if_pos rfl]
        rw [List.cons_append, List.cons_append, List.nil_append, jim_Escape_backslash]
        simp [jimEscapeDecode, odigitval, ih2]
      · by_cases h13 : c = 13
        · subst h13
          rw [backslashQuoteByte]
          rw [if_neg (by omega), if_neg (by omega), if_pos rfl]
          rw [List.cons_append, List.cons_append, List.nil_append, jim_Escape_backslash]
          simp [jimEscapeDecode, odigitval, ih2]
        · by_cases h9 : c = 9
          · subst h9
            rw [backslashQuoteByte]
            rw [if_neg (by omega), if_neg (by omega), if_neg (by omega), if_pos rfl]
            rw [List.cons_append, List.cons_append, List.nil_append, jim_Escape_backslash]
            simp [jimEscapeDecode, odigitval, ih2]
          · by_cases h12 : c = 12
            · subst h12
              rw [backslashQuoteByte]
              rw [if_neg (by omega), if_neg (by omega), if_neg (by omega), if_neg (by omega),
                if_pos rfl]
              rw [List.cons_append, List.cons_append, List.nil_append, jim_Escape_backslash]
              simp [jimEscapeDecode, odigitval, ih2]
            · by_cases h11 : c = 11
              · subst h11
                rw [backslashQuoteByte]
                rw [if_neg (by omega), if_neg (by omega), if_neg (by omega), if_neg (by omega),
                  if_neg (by omega), if_pos rfl]
                rw [List.cons_append, List.cons_append, List.nil_append, jim_Escape_backslash]
                simp [jimEscapeDecode, odigitval, ih2]
              · rw [backslashQuoteByte]
                rw [if_neg h1, if_neg h10, if_neg h13, if_neg h9, if_neg h12, if_neg h11]
                rw [List.singleton_append]
                have hc92 : c ≠ 92 := by omega
                rw [jim_Escape_plain _ hc92, ih2]

theorem listStrGo_stop (t : List Nat) (hstop : t = [] ∨ t.headD 0 = 32) :
    jimParseListStrGo false t = ([], t, false) := by
  rcases hstop with rfl | hh
  · rfl
  · cases t with
    | nil => rfl
    | cons c r =>
      simp only [List.headD_cons] at hh
      subst hh
      rfl

theorem listStrGo_cons_other (c : Nat) (r : List Nat) (hc92 : c ≠ 92) (hc0 : c ≠ 0)
    (hsep : isListSepByte c = false) (hc34 : c ≠ 34) :
    jimParseListStrGo false (c :: r) =
      (c :: (jimParseListStrGo false r).1, (jimParseListStrGo false r).2.1,
        (jimParseListStrGo false r).2.2) := by
  simp [jimParseListStrGo, hc92, hc0, hsep, hc34]

theorem listStrGo_pair (c : Nat) (r : List Nat) :
    jimParseListStrGo false (92 :: c :: r) =
      (92 :: c :: (jimParseListStrGo false r).1, (jimParseListStrGo false r).2.1,
        (jimParseListStrGo false r).2.2) := by
  simp [jimParseListStrGo]

theorem nonspecial_facts (c : Nat) (hcs : isListSpecialByte c = false) :
    c ≠ 92 ∧ c ≠ 34 ∧ isListSepByte c = false := by
  simp only [isListSpecialByte, Bool.or_eq_false_iff, decide_eq_false_iff_not] at hcs
  obtain ⟨⟨⟨⟨⟨⟨⟨⟨⟨⟨⟨h32, h36⟩, h34⟩, h91⟩, h93⟩, h59⟩, h92⟩, h13⟩, h10⟩, h9⟩, h12⟩, h11⟩ := hcs
  refine ⟨h92, h34, ?_⟩
  simp only [isListSepByte, Bool.or_eq_false_iff, decide_eq_false_iff_not]
  exact ⟨⟨⟨h32, h9⟩, h13⟩, h10⟩

theorem listStrGo_nonspecial (e t : List Nat) (hs : ∀ c ∈ e, isListSpecialByte c = false)
    (h0 : 0 ∉ e) (hstop : t = [] ∨ t.headD 0 = 32) :
    jimParseListStrGo false (e ++ t) = (e, t, false) := by
  induction e with
  | nil => simpa using listStrGo_stop t hstop
  | cons c r ih =>
    obtain ⟨hc92, hc34, hsep⟩ := nonspecial_facts c (hs c (List.mem_cons_self c r))
    have hc0 : c ≠ 0 := fun hh => h0 (hh ▸ List.mem_cons_self c r)
    have ihr := ih (fun b hb => hs b (List.mem_cons_of_mem c hb))
      (fun hm => h0 (List.mem_cons_of_mem c hm))
    rw [List.cons_append, listStrGo_cons_other c (r ++ t) hc92 hc0 hsep hc34, ihr]

theorem listStrGo_quoted (e t : List Nat) (h0 : 0 ∉ e) (hstop : t = [] ∨ t.headD 0 = 32) :
    jimParseListStrGo false (BackslashQuoteString e ++ t) =
      (BackslashQuoteString e, t, false) := by
  induction e with
  | nil => simpa using listStrGo_stop t hstop
  | cons c r ih =>
    have hc0 : c ≠ 0 := fun hh => h0 (hh ▸ List.mem_cons_self c r)
    have ihr := ih (fun hm => h0 (List.mem_cons_of_mem c hm))
    rw [BackslashQuoteString, if_neg hc0]
    by_cases h1 : c = 32 ∨ c = 36 ∨ c = 34 ∨ c = 91 ∨ c = 93 ∨ c = 123 ∨ c = 125 ∨
        c = 59 ∨ c = 92
    · rw [backslashQuoteByte, if_pos h1]
      simp only [List.cons_append, List.singleton_append, List.nil_append, List.append_assoc]
      rw [listStrGo_pair c (BackslashQuoteString r ++ t), ihr]
    · by_cases h10 : c = 10
      · subst h10
        rw [backslashQuoteByte, if_neg (by omega), if_pos rfl]
        simp only [List.cons_append, List.singleton_append, List.nil_append, List.append_assoc]
        rw [listStrGo_pair 110 (BackslashQuoteString r ++ t), ihr]
      · by_cases h13 : c = 13
        · subst h13
          rw [backslashQuoteByte, if_neg (by omega), if_neg (by omega), if_pos rfl]
          simp only [List.cons_append, List.singleton_append, List.nil_append, List.append_assoc]
          rw [listStrGo_pair 114 (BackslashQuoteString r ++ t), ihr]
        · by_cases h9 : c = 9
          · subst h9
            rw [backslashQuoteByte, if_neg (by omega), if_neg (by omega), if_neg (by omega),
              if_pos rfl]
            simp only [List.cons_append, List.singleton_append, List.nil_append, List.append_assoc]
            rw [listStrGo_pair 116 (BackslashQuoteString r ++ t), ihr]
          · by_cases h12 : c = 12
            · subst h12
              rw [backslashQuoteByte, if_neg (by omega), if_neg (by omega), if_neg (by omega),
                if_neg (by omega), if_pos rfl]
              simp only [List.cons_append, List.singleton_append, List.nil_append, List.append_assoc]
              rw [listStrGo_pair 102 (BackslashQuoteString r ++ t), ihr]
            · by_cases h11 : c = 11
              · subst h11
                rw [backslashQuoteByte, if_neg (by omega), if_neg (by omega), if_neg (by omega),
                  if_neg (by omega), if_neg (by omega), if_pos rfl]
                simp only [List.cons_append, List.singleton_append, List.nil_append, List.append_assoc]
                rw [listStrGo_pair 118 (BackslashQuoteString r ++ t), ihr]
              · rw [backslashQuoteByte, if_neg h1, if_neg h10, if_neg h13, if_neg h9,
                  if_neg h12, if_neg h11]
                have hcs : isListSpecialByte c = false := by
                  simp only [isListSpecialByte, Bool.or_eq_false_iff, decide_eq_false_iff_not]
                  omega
                obtain ⟨hc92, hc34, hsep⟩ := nonspecial_facts c hcs
                rw [List.singleton_append, List.cons_append,
                  listStrGo_cons_other c (BackslashQuoteString r ++ t) hc92 hc0 hsep hc34, ihr]

theorem braceGo_pair (lvl : Nat) (c : Nat) (r : List Nat) (hc : c ≠ 0) :
    jimParseBraceGo lvl (92 :: c :: r) =
      (92 :: c :: (jimParseBraceGo lvl r).1, (jimParseBraceGo lvl r).2) := by
  simp [jimParseBraceGo, hc, tokCons]

theorem braceGo_open (lvl : Nat) (r : List Nat) :
    jimParseBraceGo lvl (123 :: r) =
      (123 :: (jimParseBraceGo (lvl + 1) r).1, (jimParseBraceGo (lvl + 1) r).2) := by
  simp [jimParseBraceGo, tokCons]

theorem braceGo_close (lvl : Nat) (r : List Nat) (h : lvl ≠ 1) :
    jimParseBraceGo lvl (125 :: r) =
      (125 :: (jimParseBraceGo (lvl - 1) r).1, (jimParseBraceGo (lvl - 1) r).2) := by
  simp [jimParseBraceGo, h, tokCons]

theorem braceGo_close_done (r : List Nat) : jimParseBraceGo 1 (125 :: r) = ([], r) := by
  simp [jimParseBraceGo]

theorem braceGo_other (lvl : Nat) (c : Nat) (r : List Nat) (h92 : c ≠ 92) (h0 : c ≠ 0)
    (h123 : c ≠ 123) (h125 : c ≠ 125) :
    jimParseBraceGo lvl (c :: r) =
      (c :: (jimParseBraceGo lvl r).1, (jimParseBraceGo lvl r).2) := by
  simp [jimParseBraceGo, h92, h0, h123, h125, tokCons]

theorem getLast?_tail_ne (c : Nat) (e : List Nat) (h : (c :: e).getLast? ≠ some 92) :
    e.getLast? ≠ some 92 := by
  cases e with
  | nil => simp
  | cons x xs => rw [List.getLast?_cons_cons] at h; exact h

theorem braceGo_of_testbrace : ∀ (e : List Nat) (lvl : Int), 0 ≤ lvl →
    testbraceLevel e lvl = some 0 → 0 ∉ e → e.getLast? ≠ some 92 →
    ∀ rest, jimParseBraceGo (lvl.toNat + 1) (e ++ 125 :: rest) = (e, rest) := by
  intro e lvl
  induction e, lvl using testbraceLevel.induct with
  | case1 lvl =>
    intro hl ht h0 hlast rest
    have hz : lvl = 0 := by
      simp only [testbraceLevel, Option.some.injEq] at ht
      exact ht
    subst hz
    rw [List.nil_append]
    exact braceGo_close_done rest
  | case2 lvl =>
    intro hl ht h0 hlast rest
    simp at hlast
  | case3 r lvl =>
    intro hl ht h0 hlast rest
    simp [testbraceLevel] at ht
  | case4 c r lvl hc ih =>
    intro hl ht h0 hlast rest
    simp only [testbraceLevel, if_neg hc] at ht
    have hc0 : c ≠ 0 := by
      intro hh
      exact h0 (hh ▸ List.mem_cons_of_mem 92 (List.mem_cons_self c r))
    have h0r : 0 ∉ r := fun hm =>
      h0 (List.mem_cons_of_mem 92 (List.mem_cons_of_mem c hm))
    have hlr : r.getLast? ≠ some 92 :=
      getLast?_tail_ne c r (getLast?_tail_ne 92 (c :: r) hlast)
    rw [List.cons_append, List.cons_append, braceGo_pair _ c _ hc0,
      ih hl ht h0r hlr rest]
  | case5 r lvl ih =>
    intro hl ht h0 hlast rest
    simp only [testbraceLevel] at ht
    have h0r : 0 ∉ r := fun hm => h0 (List.mem_cons_of_mem 123 hm)
    have hlr : r.getLast? ≠ some 92 := getLast?_tail_ne 123 r hlast
    have htn : (lvl + 1).toNat = lvl.toNat + 1 := by omega
    rw [List.cons_append, braceGo_open, ← htn, ih (by omega) ht h0r hlr rest]
  | case6 r lvl hneg =>
    intro hl ht h0 hlast rest
    simp [testbraceLevel, hneg] at ht
  | case7 r lvl hneg ih =>
    intro hl ht h0 hlast rest
    simp only [testbraceLevel, if_neg hneg] at ht
    have h0r : 0 ∉ r := fun hm => h0 (List.mem_cons_of_mem 125 hm)
    have hlr : r.getLast? ≠ some 92 := getLast?_tail_ne 125 r hlast
    have hne1 : lvl.toNat + 1 ≠ 1 := by omega
    have htn : (lvl - 1).toNat + 1 = lvl.toNat + 1 - 1 := by omega
    rw [List.cons_append, braceGo_close _ _ hne1, ← htn,
      ih (by omega) ht h0r hlr rest]
  | case8 head r lvl hx1 hx2 h123 h125 ih =>
    intro hl ht h0 hlast rest
    have h92 : head ≠ 92 := by
      intro hh
      cases r with
      | nil => exact hx1 hh rfl
      | cons c r1 => exact hx2 c r1 hh rfl
    have hc0 : head ≠ 0 := fun hh => h0 (hh ▸ List.mem_cons_self head r)
    have h123n : head ≠ 123 := fun hh => h123 hh
    have h125n : head ≠ 125 := fun hh => h125 hh
    have hteq : testbraceLevel (head :: r) lvl = testbraceLevel r lvl := by
      simp [testbraceLevel, h92, h123n, h125n]
    rw [hteq] at ht
    have h0r : 0 ∉ r := fun hm => h0 (List.mem_cons_of_mem head hm)
    have hlr : r.getLast? ≠ some 92 := getLast?_tail_ne head r hlast
    rw [List.cons_append, braceGo_other _ head _ h92 hc0 h123n h125n,
      ih hl ht h0r hlr rest]

theorem scan_none (s : List Nat) (h : listQTScan s = none) :
    ∀ c ∈ s, isListSpecialByte c = false ∧ c ≠ 123 ∧ c ≠ 125 := by
  induction s with
  | nil => intro c hc; exact absurd hc (List.not_mem_nil c)
  | cons d r ih =>
    rw [listQTScan] at h
    by_cases h1 : isListSpecialByte d
    · rw [if_pos h1] at h; exact Option.noConfusion h
    · rw [if_neg h1] at h
      by_cases h2 : d = 123 ∨ d = 125
      · rw [if_pos h2] at h; exact Option.noConfusion h
      · rw [if_neg h2] at h
        push_neg at h2
        intro c hc
        rcases List.mem_cons.mp hc with rfl | hm
        · exact ⟨Bool.eq_false_iff.mpr h1, h2.1, h2.2⟩
        · exact ih h c hm

theorem testbrace_simple (s : List Nat) (t : Bool)
    (h : listQTTestbrace s t = JIM_ELESTR_SIMPLE) :
    s.any isListSpecialByte = false := by
  unfold listQTTestbrace at h
  by_cases h1 : s.getLast?.getD 0 = 92 ∨ s.getLast?.getD 0 = 93
  · rw [if_pos h1] at h; exact absurd h (by simp [JIM_ELESTR_QUOTE, JIM_ELESTR_SIMPLE])
  rw [if_neg h1] at h
  cases hw : testbraceLevel s 0 with
  | none => rw [hw] at h; exact absurd h (by simp [JIM_ELESTR_QUOTE, JIM_ELESTR_SIMPLE])
  | some lvl =>
    rw [hw] at h
    dsimp only [] at h
    by_cases h2 : lvl = 0
    · rw [if_pos h2] at h
      by_cases h3 : ¬t = true
      · rw [if_pos h3] at h
        exact absurd h (by simp [JIM_ELESTR_BRACE, JIM_ELESTR_SIMPLE])
      · rw [if_neg h3] at h
        by_cases h4 : s.any isListSpecialByte
        · rw [if_pos h4] at h
          exact absurd h (by simp [JIM_ELESTR_BRACE, JIM_ELESTR_SIMPLE])
        · exact Bool.eq_false_iff.mpr h4
    · rw [if_neg h2] at h
      exact absurd h (by simp [JIM_ELESTR_QUOTE, JIM_ELESTR_SIMPLE])

theorem testbrace_brace (s : List Nat) (t : Bool)
    (h : listQTTestbrace s t = JIM_ELESTR_BRACE) :
    testbraceLevel s 0 = some 0 ∧ s.getLast? ≠ some 92 := by
  unfold listQTTestbrace at h
  by_cases h1 : s.getLast?.getD 0 = 92 ∨ s.getLast?.getD 0 = 93
  · rw [if_pos h1] at h; exact absurd h (by simp [JIM_ELESTR_QUOTE, JIM_ELESTR_BRACE])
  rw [if_neg h1] at h
  push_neg at h1
  have hlast : s.getLast? ≠ some 92 := by
    intro hh
    rw [hh] at h1
    exact h1.1 rfl
  cases hw : testbraceLevel s 0 with
  | none => rw [hw] at h; exact absurd h (by simp [JIM_ELESTR_QUOTE, JIM_ELESTR_BRACE])
  | some lvl =>
    rw [hw] at h
    dsimp only [] at h
    by_cases h2 : lvl = 0
    · subst h2
      exact ⟨rfl, hlast⟩
    · rw [if_neg h2] at h
      exact absurd h (by simp [JIM_ELESTR_QUOTE, JIM_ELESTR_BRACE])

theorem qt_simple (e : List Nat) (h : ListElementQuotingType e = JIM_ELESTR_SIMPLE) :
    e ≠ [] ∧ e.headD 0 ≠ 123 ∧ e.headD 0 ≠ 34 ∧ ∀ c ∈ e, isListSpecialByte c = false := by
  unfold ListElementQuotingType at h
  by_cases h1 : e = []
  · rw [if_pos h1] at h; exact absurd h (by simp [JIM_ELESTR_BRACE, JIM_ELESTR_SIMPLE])
  rw [if_neg h1] at h
  by_cases h2 : e.headD 0 = 34 ∨ e.headD 0 = 123
  · rw [if_pos h2] at h
    have := testbrace_simple e false h
    have h34 : isListSpecialByte 34 = true := by decide
    exfalso
    rcases h2 with h2 | h2
    · cases e with
      | nil => exact h1 rfl
      | cons c r =>
        simp only [List.headD_cons] at h2
        subst h2
        simp [isListSpecialByte] at this
    · unfold listQTTestbrace at h
      by_cases hq : e.getLast?.getD 0 = 92 ∨ e.getLast?.getD 0 = 93
      · rw [if_pos hq] at h; exact absurd h (by simp [JIM_ELESTR_QUOTE, JIM_ELESTR_SIMPLE])
      · rw [if_neg hq] at h
        cases hw : testbraceLevel e 0 with
        | none =>
          rw [hw] at h; exact absurd h (by simp [JIM_ELESTR_QUOTE, JIM_ELESTR_SIMPLE])
        | some lvl =>
          rw [hw] at h
          dsimp only [] at h
          by_cases hlv : lvl = 0
          · rw [if_pos hlv, if_pos (by simp)] at h
            exact absurd h (by simp [JIM_ELESTR_BRACE, JIM_ELESTR_SIMPLE])
          · rw [if_neg hlv] at h
            exact absurd h (by simp [JIM_ELESTR_QUOTE, JIM_ELESTR_SIMPLE])
  · rw [if_neg h2] at h
    push_neg at h2
    cases hw : listQTScan e with
    | none =>
      have hall := scan_none e hw
      exact ⟨h1, h2.2, h2.1, fun c hc => (hall c hc).1⟩
    | some ts =>
      rw [hw] at h
      have hany := testbrace_simple e ts h
      refine ⟨h1, h2.2, h2.1, ?_⟩
      intro c hc
      rw [List.any_eq_false] at hany
      exact Bool.eq_false_iff.mpr (hany c hc)

theorem qt_brace (e : List Nat) (h : ListElementQuotingType e = JIM_ELESTR_BRACE) :
    e = [] ∨ (testbraceLevel e 0 = some 0 ∧ e.getLast? ≠ some 92) := by
  unfold ListElementQuotingType at h
  by_cases h1 : e = []
  · exact Or.inl h1
  rw [if_neg h1] at h
  by_cases h2 : e.headD 0 = 34 ∨ e.headD 0 = 123
  · rw [if_pos h2] at h
    exact Or.inr (testbrace_brace e false h)
  · rw [if_neg h2] at h
    cases hw : listQTScan e with
    | none =>
      rw [hw] at h
      exact absurd h (by simp [JIM_ELESTR_BRACE, JIM_ELESTR_SIMPLE])
    | some ts =>
      rw [hw] at h
      exact Or.inr (testbrace_brace e ts h)

theorem qt_nil : ListElementQuotingType [] = JIM_ELESTR_BRACE := rfl

theorem parseList_entry (tt0 : JimTT) (c : Nat) (r : List Nat) (hc0 : c ≠ 0)
    (hsep : isListSepByte c = false) :
    JimParseList tt0 false (c :: r) = JimParseListStr tt0 false (c :: r) := by
  simp [JimParseList, hc0, hsep]

theorem parseListStr_esc (tt0 : JimTT) (q : Bool) (c : Nat) (r : List Nat)
    (h123 : c ≠ 123) (h34 : c ≠ 34) :
    JimParseListStr tt0 q (c :: r) =
      ⟨ttESC, (jimParseListStrGo q (c :: r)).1, (jimParseListStrGo q (c :: r)).2.1,
        (jimParseListStrGo q (c :: r)).2.2, false⟩ := by
  simp [JimParseListStr, h123, h34]

theorem parseListStr_brace (tt0 : JimTT) (q : Bool) (r : List Nat)
    (htt : tt0 = ttNONE ∨ tt0 = ttSEP) :
    JimParseListStr tt0 q (123 :: r) =
      ⟨ttSTR, (jimParseBraceGo 1 r).1, (jimParseBraceGo 1 r).2, q, false⟩ := by
  rcases htt with rfl | rfl <;> simp [JimParseListStr, JimParseBrace]

theorem bqs_head (c : Nat) (r : List Nat) (hc0 : c ≠ 0) :
    ∃ h rest2, BackslashQuoteString (c :: r) = h :: rest2 ∧ h ≠ 0 ∧ h ≠ 123 ∧ h ≠ 34 ∧
      isListSepByte h = false := by
  rw [BackslashQuoteString, if_neg hc0]
  by_cases h1 : c = 32 ∨ c = 36 ∨ c = 34 ∨ c = 91 ∨ c = 93 ∨ c = 123 ∨ c = 125 ∨
      c = 59 ∨ c = 92
  · rw [backslashQuoteByte, if_pos h1]
    exact ⟨92, c :: BackslashQuoteString r, rfl, by omega, by omega, by omega, by decide⟩
  · by_cases h10 : c = 10
    · subst h10
      exact ⟨92, 110 :: BackslashQuoteString r, rfl, by omega, by omega, by omega, by decide⟩
    · by_cases h13 : c = 13
      · subst h13
        exact ⟨92, 114 :: BackslashQuoteString r, rfl, by omega, by omega, by omega, by decide⟩
      · by_cases h9 : c = 9
        · subst h9
          exact ⟨92, 116 :: BackslashQuoteString r, rfl, by omega, by omega, by omega,
            by decide⟩
        · by_cases h12 : c = 12
          · subst h12
            exact ⟨92, 102 :: BackslashQuoteString r, rfl, by omega, by omega, by omega,
              by decide⟩
          · by_cases h11 : c = 11
            · subst h11
              exact ⟨92, 118 :: BackslashQuoteString r, rfl, by omega, by omega, by omega,
                by decide⟩
            · refine ⟨c, BackslashQuoteString r, ?_, hc0, by omega, by omega, ?_⟩
              · rw [backslashQuoteByte, if_neg h1, if_neg h10, if_neg h13, if_neg h9,
                  if_neg h12, if_neg h11, List.singleton_append]
              · simp only [isListSepByte, Bool.or_eq_false_iff, decide_eq_false_iff_not]
                omega

theorem parse_render_element (e t : List Nat) (tt0 : JimTT) (h0 : 0 ∉ e)
    (htt : tt0 = ttNONE ∨ tt0 = ttSEP) (hstop : t = [] ∨ t.headD 0 = 32) :
    ∃ tt1 tok, JimParseList tt0 false (UpdateStringOfListElement e ++ t) =
      ⟨tt1, tok, t, false, false⟩ ∧ (tt1 = ttSTR ∨ tt1 = ttESC) ∧
      JimParserGetToken tt1 tok = e := by
  by_cases hq0 : ListElementQuotingType e = JIM_ELESTR_SIMPLE
  · obtain ⟨hne, h123, h34, hall⟩ := qt_simple e hq0
    have hrender : UpdateStringOfListElement e = e := by
      rw [UpdateStringOfListElement]
      simp only [hq0]
      simp
    rw [hrender]
    obtain ⟨c, r, rfl⟩ := List.exists_cons_of_ne_nil hne
    simp only [List.headD_cons] at h123 h34
    obtain ⟨hc92, hc34, hsep⟩ := nonspecial_facts c (hall c (List.mem_cons_self c r))
    have hc0 : c ≠ 0 := fun hh => h0 (hh ▸ List.mem_cons_self c r)
    refine ⟨ttESC, c :: r, ?_, Or.inr rfl, ?_⟩
    · rw [List.cons_append, parseList_entry tt0 c (r ++ t) hc0 hsep,
        parseListStr_esc tt0 false c (r ++ t) h123 h34]
      have hgo := listStrGo_nonspecial (c :: r) t hall h0 hstop
      rw [List.cons_append] at hgo
      rw [hgo]
    · have h92mem : 92 ∉ c :: r := by
        intro hm
        have := hall 92 hm
        simp [isListSpecialByte] at this
      simp only [JimParserGetToken, if_pos rfl]
      exact escape_no_backslash (c :: r) h92mem
  · by_cases hq1 : ListElementQuotingType e = JIM_ELESTR_BRACE
    · have hrender : UpdateStringOfListElement e = 123 :: e ++ [125] := by
        rw [UpdateStringOfListElement]
        simp only [hq1]
        simp [JIM_ELESTR_BRACE, JIM_ELESTR_SIMPLE]
      rw [hrender]
      have hbrace : jimParseBraceGo 1 (e ++ 125 :: t) = (e, t) := by
        rcases qt_brace e hq1 with rfl | ⟨ht, hlast⟩
        · have := braceGo_of_testbrace [] 0 (by omega) rfl (by simp) (by simp) t
          simpa using this
        · have := braceGo_of_testbrace e 0 (by omega) ht h0 hlast t
          simpa using this
      refine ⟨ttSTR, e, ?_, Or.inl rfl, ?_⟩
      · rw [List.cons_append, List.cons_append, parseList_entry tt0 123 _ (by omega) (by decide),
          parseListStr_brace tt0 false _ htt]
        rw [List.append_assoc, List.singleton_append, hbrace]
      · simp [JimParserGetToken]
    · have hne : e ≠ [] := by
        intro hh
        rw [hh] at hq1
        exact hq1 qt_nil
      have hrender : UpdateStringOfListElement e = BackslashQuoteString e := by
        rw [UpdateStringOfListElement]
        by_cases hx : ListElementQuotingType e = JIM_ELESTR_SIMPLE
        · exact absurd hx hq0
        · rw [if_neg hx, if_neg hq1]
      rw [hrender]
      obtain ⟨c, r, rfl⟩ := List.exists_cons_of_ne_nil hne
      have hc0 : c ≠ 0 := fun hh => h0 (hh ▸ List.mem_cons_self c r)
      obtain ⟨hh, rest2, hbqs, hh0, hh123, hh34, hhsep⟩ := bqs_head c r hc0
      refine ⟨ttESC, BackslashQuoteString (c :: r), ?_, Or.inr rfl, ?_⟩
      · rw [hbqs, List.cons_append, parseList_entry tt0 hh _ hh0 hhsep,
          parseListStr_esc tt0 false hh _ hh123 hh34]
        have hgo := listStrGo_quoted (c :: r) t h0 hstop
        rw [hbqs, List.cons_append] at hgo
        rw [hgo]
      · simp only [JimParserGetToken, if_pos rfl]
        exact escape_bqs (c :: r) h0

theorem render_facts (e : List Nat) (h0 : 0 ∉ e) :
    UpdateStringOfListElement e ≠ [] ∧
    isListSepByte ((UpdateStringOfListElement e).headD 0) = false ∧
    (UpdateStringOfListElement e).headD 0 ≠ 0 := by
  by_cases hq0 : ListElementQuotingType e = JIM_ELESTR_SIMPLE
  · obtain ⟨hne, -, -, hall⟩ := qt_simple e hq0
    have hrender : UpdateStringOfListElement e = e := by
      rw [UpdateStringOfListElement]
      simp only [hq0]
      simp
    rw [hrender]
    obtain ⟨c, r, rfl⟩ := List.exists_cons_of_ne_nil hne
    obtain ⟨-, -, hsep⟩ := nonspecial_facts c (hall c (List.mem_cons_self c r))
    have hc0 : c ≠ 0 := fun hh => h0 (hh ▸ List.mem_cons_self c r)
    exact ⟨by simp, by simpa using hsep, by simpa using hc0⟩
  · by_cases hq1 : ListElementQuotingType e = JIM_ELESTR_BRACE
    · have hrender : UpdateStringOfListElement e = 123 :: e ++ [125] := by
        rw [UpdateStringOfListElement]
        simp only [hq1]
        simp [JIM_ELESTR_BRACE, JIM_ELESTR_SIMPLE]
      rw [hrender]
      refine ⟨by simp, ?_, ?_⟩
      · rw [List.cons_append, List.headD_cons]
        decide
      · rw [List.cons_append, List.headD_cons]
        omega
    · have hne : e ≠ [] := fun hh => hq1 (hh ▸ qt_nil)
      have hrender : UpdateStringOfListElement e = BackslashQuoteString e := by
        rw [UpdateStringOfListElement]
        rw [if_neg hq0, if_neg hq1]
      rw [hrender]
      obtain ⟨c, r, rfl⟩ := List.exists_cons_of_ne_nil hne
      have hc0 : c ≠ 0 := fun hh => h0 (hh ▸ List.mem_cons_self c r)
      obtain ⟨hh, rest2, hbqs, hh0, -, -, hhsep⟩ := bqs_head c r hc0
      rw [hbqs]
      exact ⟨by simp, by simpa using hhsep, by simpa using hh0⟩

theorem setListGo_nil_input (f : Nat) (tt : JimTT) (q : Bool) (hf : 1 ≤ f) :
    setListGo f tt q [] = [] := by
  cases f with
  | zero => omega
  | succ f2 => simp [setListGo, JimParseList]

theorem updateString_head (eles : List (List Nat)) (e2 : List Nat) :
    ∃ s2, UpdateStringOfList (e2 :: eles) = UpdateStringOfListElement e2 ++ s2 ∧
      (s2 = [] ∨ s2.headD 0 = 32) := by
  cases eles with
  | nil =>
    refine ⟨[], ?_, Or.inl rfl⟩
    simp [UpdateStringOfList, List.intercalate]
  | cons e3 rest3 =>
    refine ⟨32 :: UpdateStringOfList (e3 :: rest3), ?_, Or.inr rfl⟩
    simp [UpdateStringOfList, List.intercalate, List.intersperse]

theorem setListGo_step (f : Nat) (tt0 : JimTT) (input : List Nat) (p : ParseStep)
    (hp : JimParseList tt0 false input = p) (heof : p.eofFlag = false) :
    setListGo (f + 1) tt0 false input =
      if p.tt = ttSTR ∨ p.tt = ttESC then
        JimParserGetToken p.tt p.token :: setListGo f p.tt p.state p.rest
      else setListGo f p.tt p.state p.rest := by
  simp only [setListGo]
  rw [hp, if_neg (by simp [heof])]

theorem setListGo_spec : ∀ (eles : List (List Nat)), (∀ e ∈ eles, 0 ∉ e) →
    ∀ (fuel : Nat) (tt0 : JimTT), (UpdateStringOfList eles).length + 2 ≤ fuel →
    (tt0 = ttNONE ∨ tt0 = ttSEP) →
    setListGo fuel tt0 false (UpdateStringOfList eles) = eles := by
  intro eles
  induction eles with
  | nil =>
    intro h fuel tt0 hfuel htt
    have hu : UpdateStringOfList [] = [] := rfl
    rw [hu] at hfuel ⊢
    exact setListGo_nil_input fuel tt0 false (by simp at hfuel; omega)
  | cons e rest ih =>
    intro h fuel tt0 hfuel htt
    have h0 : 0 ∉ e := h e (List.mem_cons_self e rest)
    have hrestmem : ∀ x ∈ rest, 0 ∉ x := fun x hx => h x (List.mem_cons_of_mem e hx)
    obtain ⟨hrne, -, -⟩ := render_facts e h0
    have hlen1 : 1 ≤ (UpdateStringOfListElement e).length := List.length_pos.mpr hrne
    cases rest with
    | nil =>
      have hu : UpdateStringOfList [e] = UpdateStringOfListElement e ++ [] := by
        simp [UpdateStringOfList, List.intercalate]
      rw [hu] at hfuel ⊢
      obtain ⟨tt1, tok, hp, htt1, hgt⟩ := parse_render_element e [] tt0 h0 htt (Or.inl rfl)
      cases fuel with
      | zero => simp at hfuel
      | succ f =>
        rw [setListGo_step f tt0 _ _ hp rfl]
        rw [if_pos (by rcases htt1 with rfl | rfl <;> simp)]
        show JimParserGetToken tt1 tok :: setListGo f tt1 false [] = [e]
        rw [hgt, setListGo_nil_input f tt1 false (by simp at hfuel; omega)]
    | cons e2 rest2 =>
      have h02 : 0 ∉ e2 := hrestmem e2 (List.mem_cons_self e2 rest2)
      have hu : UpdateStringOfList (e :: e2 :: rest2) =
          UpdateStringOfListElement e ++ 32 :: UpdateStringOfList (e2 :: rest2) := by
        simp [UpdateStringOfList, List.intercalate, List.intersperse]
      rw [hu] at hfuel ⊢
      obtain ⟨tt1, tok, hp, htt1, hgt⟩ := parse_render_element e
        (32 :: UpdateStringOfList (e2 :: rest2)) tt0 h0 htt (Or.inr rfl)
      obtain ⟨hne2, hsep2, hh02⟩ := render_facts e2 h02
      obtain ⟨s3, hu2, hstop2⟩ := updateString_head rest2 e2
      have hShead : ∃ c2 S2, UpdateStringOfList (e2 :: rest2) = c2 :: S2 ∧
          isListSepByte c2 = false ∧ c2 ≠ 0 := by
        obtain ⟨c2, r2, hc2⟩ := List.exists_cons_of_ne_nil hne2
        rw [hc2] at hsep2 hh02
        simp only [List.headD_cons] at hsep2 hh02
        exact ⟨c2, r2 ++ s3, by rw [hu2, hc2, List.cons_append], hsep2, hh02⟩
      obtain ⟨c2, S2, hc2S, hsepc2, hc20⟩ := hShead
      have hsepstep : JimParseList tt1 false (32 :: UpdateStringOfList (e2 :: rest2)) =
          ⟨ttSEP, [32], UpdateStringOfList (e2 :: rest2), false, false⟩ := by
        rw [hc2S]
        simp only [isListSepByte, Bool.or_eq_false_iff, decide_eq_false_iff_not] at hsepc2
        simp [JimParseList, JimParseListSep, isListSepByte]
        exact ⟨⟨⟨hsepc2.1.1.1, hsepc2.1.1.2⟩, hsepc2.1.2⟩, hsepc2.2⟩
      cases fuel with
      | zero => simp at hfuel
      | succ f =>
      cases f with
      | zero =>
        exfalso
        simp only [List.length_append, List.length_cons] at hfuel
        omega
      | succ f2 =>
        rw [setListGo_step (f2 + 1) tt0 _ _ hp rfl]
        rw [if_pos (by rcases htt1 with rfl | rfl <;> simp)]
        show JimParserGetToken tt1 tok ::
          setListGo (f2 + 1) tt1 false (32 :: UpdateStringOfList (e2 :: rest2)) =
          e :: e2 :: rest2
        rw [hgt, setListGo_step f2 tt1 _ _ hsepstep rfl]
        rw [if_neg (by simp)]
        show e :: setListGo f2 ttSEP false (UpdateStringOfList (e2 :: rest2)) = e :: e2 :: rest2
        rw [ih hrestmem f2 ttSEP (by simp at hfuel ⊢; omega) (Or.inr rfl)]

/-- C6 counterexample: the element `[0]` (a single NUL byte) is rendered by
the quoting analysis as the bare byte (SIMPLE), but re-parsing that string
stops at the NUL and yields the empty list, not `[[0]]`. -/
theorem list_quote_nul_counterexample :
    UpdateStringOfList [[0]] = [0] ∧
    SetListFromAny (UpdateStringOfList [[0]]) = [] ∧
    ([] : List (List Nat)) ≠ [[0]] := by
  refine ⟨rfl, rfl, by simp⟩

/-- C6: for NUL-free elements the round-trip holds: rendering each element
with the quoting strategy chosen by `ListElementQuotingType` (simple copy,
brace wrapping, or backslash quoting), joining with spaces, and re-parsing
with the list parser reproduces the original element sequence (in
particular, a one-element list reproduces its single element). -/
theorem list_quote_roundtrip (eles : List (List Nat)) (h : ∀ e ∈ eles, 0 ∉ e) :
    SetListFromAny (UpdateStringOfList eles) = eles := by
  unfold SetListFromAny
  exact setListGo_spec eles h _ ttNONE (by omega) (Or.inl rfl)

/-- C6 witness: the round-trip at a list exercising all three quoting
modes: `a` (simple), `a b` (braced), `{a` (backslash-quoted), and the
empty element (braced). -/
theorem list_quote_roundtrip_witness :
    SetListFromAny (UpdateStringOfList [[97], [97, 32, 98], [123, 97], []]) =
      [[97], [97, 32, 98], [123, 97], []] :=
  list_quote_roundtrip [[97], [97, 32, 98], [123, 97], []] (by decide)
